import Mathlib

/-!
Shallow embedding of the graphgate query-plan executor core
(`crates/core/src/executor/mod.rs`) and of the input validator
(`crates/core/src/validation/utils.rs`), together with theorems checking the
natural-language specification against it.

The JSON-like `ConstValue` type of the executor stores objects as
`BTreeMap<Name, ConstValue>`: a mapping ordered by key (byte-wise string
order).  We embed objects as association lists that the operations keep
sorted by key, exactly mirroring the BTreeMap operations used in the source
(`get`, `get_mut`, `insert`, `remove`, iteration in ascending key order).

String primitives of the embedding (`strLt`, `strStartsWith`, `strDrop`)
are defined over `String.data` so that they evaluate inside the kernel;
on valid UTF-8 they agree with the byte-wise comparisons of the source.
-/

namespace GraphGate

/-- Lexicographic order on character lists (by code point), the order
underlying the `Ord` instance of `Name`/`String` keys of a `BTreeMap`.
For valid UTF-8, code-point order coincides with the byte-wise order Rust
uses. -/
def listCharLt : List Char → List Char → Bool
  | [], [] => false
  | [], _ :: _ => true
  | _ :: _, [] => false
  | a :: as, b :: bs =>
    if a < b then true
    else if b < a then false
    else listCharLt as bs

/-- Key order of the `BTreeMap<Name, ConstValue>` objects. -/
def strLt (a b : String) : Bool := listCharLt a.data b.data

/-- `str::starts_with` on strings (prefix of the character list; for valid
UTF-8 this is the same as Rust's byte-prefix test). -/
def strStartsWith (s p : String) : Bool := p.data.isPrefixOf s.data

/-- `&s[n..]` where the first `n` bytes of `s` are a known ASCII prefix:
drop the first `n` characters. -/
def strDrop (s : String) (n : Nat) : String := ⟨s.data.drop n⟩

/-- Embedding of `value::ConstValue`.  The `Number` variant of the source
wraps a serde number that is an integer (i64/u64) or a float; the claims
under check never inspect a float's payload, so `numFloat` does not carry
it.  `Binary`'s payload is likewise never inspected by the executor and is
not carried.  Objects (`BTreeMap<Name, ConstValue>`) are association lists
kept sorted by key by the operations below. -/
inductive V : Type where
  | null : V
  | numInt (n : Int) : V
  | numFloat : V
  | str (s : String) : V
  | boolean (b : Bool) : V
  | binary : V
  | enum (e : String) : V
  | list (elems : List V) : V
  | obj (fields : List (String × V)) : V
  deriving Repr, Inhabited

/-- `BTreeMap::get`: the value bound to key `k` (first match; on the sorted,
duplicate-free lists produced by the operations this is the unique match). -/
def objGet (k : String) : List (String × V) → Option V
  | [] => none
  | (k', v) :: rest => if k = k' then some v else objGet k rest

/-- `BTreeMap::insert`: insert `(k, v)` keeping the list sorted by key,
replacing an existing binding of `k`. -/
def btInsert (k : String) (v : V) : List (String × V) → List (String × V)
  | [] => [(k, v)]
  | (k', v') :: rest =>
    if strLt k k' then (k, v) :: (k', v') :: rest
    else if k = k' then (k, v) :: rest
    else (k', v') :: btInsert k v rest

/-- `BTreeMap::get_mut` followed by overwriting the found value in place:
replace the value bound to the (first occurrence of) key `k`. -/
def objUpdate (k : String) (v : V) : List (String × V) → List (String × V)
  | [] => []
  | (k', v') :: rest =>
    if k = k' then (k', v) :: rest else (k', v') :: objUpdate k v rest

mutual

/-- Embedding of `merge_data(target: &mut ConstValue, value: ConstValue)`:
null target is replaced by the fragment; object/object merges per fragment
key (recurse when present, insert when absent); list/list of equal length
merges pairwise; every other combination leaves the target unchanged. -/
def mergeData : V → V → V
  | .null, fragment => fragment
  | .obj fields, .obj fragmentFields => .obj (mergeObj fields fragmentFields)
  | .list elems, .list fragmentElems =>
    if elems.length = fragmentElems.length then .list (mergeList elems fragmentElems)
    else .list elems
  | target, _ => target
termination_by structural _t fragment => fragment

/-- The `for (key, value) in fragment_object` loop of `merge_data`. -/
def mergeObj : List (String × V) → List (String × V) → List (String × V)
  | target, [] => target
  | target, (k, v) :: rest =>
    match objGet k target with
    | some old => mergeObj (objUpdate k (mergeData old v) target) rest
    | none => mergeObj (btInsert k v target) rest
termination_by structural _t fs => fs

/-- The pairwise list loop of `merge_data` (only reached on equal lengths). -/
def mergeList : List V → List V → List V
  | x :: xs, y :: ys => mergeData x y :: mergeList xs ys
  | xs, _ => xs
termination_by structural _xs ys => ys

end

/-- Embedding of `planner::PathSegment { name, is_list }`:  one step of a
flatten path; `is_list` means "descend into each element of the list at this
field". -/
structure Seg where
  name : String
  is_list : Bool
  deriving Repr, DecidableEq

/-- State-threading map: rebuild a list left-to-right while threading a
state value (the shape of the `for element in array` loops of the executor,
which mutate each element and a shared accumulator in order). -/
def stmap (f : σ → V → V × σ) : σ → List V → List V × σ
  | s, [] => ([], s)
  | s, x :: xs =>
    let (y, s') := f s x
    let (ys, s'') := stmap f s' xs
    (y :: ys, s'')

/-- Embedding of `extract_keys(from, prefix)`: remove every key of the
object that starts with `__key<prefix>_`, and collect the removed entries,
keys stripped of the prefix, into a fresh object.  (`&key[prefix.len()..]`
slices bytes; the prefix is ASCII, so dropping `prefix.length` characters
is the same slice.) -/
def extract_keys (pfx : Nat) (m : List (String × V)) : List (String × V) × V :=
  let p := "__key" ++ Nat.repr pfx ++ "_"
  let keep := m.filter (fun kv => !(strStartsWith kv.1 p))
  let taken := m.filter (fun kv => strStartsWith kv.1 p)
  let res := taken.foldl (fun acc kv => btInsert (strDrop kv.1 p.length) kv.2 acc) []
  (keep, V.obj res)

/-- Embedding of `get_representations(representations, value, path, prefix)`.
It walks `value` along `path` (descending into the named field, and into
every element when `is_list`), and at the last segment extracts the key
object of each reached object site, appending it to the representation
list.  Returns the mutated value and the extended representation list. -/
def get_representations : List Seg → Nat → V → List V → V × List V
  | [], _, v, reps => (v, reps)
  | [seg], pfx, v, reps =>
    match v with
    | .obj fields =>
      if seg.is_list then
        match objGet seg.name fields with
        | some (.list arr) =>
          let (arr', reps') := stmap (fun reps el =>
            match el with
            | .obj elementFields =>
              let (elementFields', rep) := extract_keys pfx elementFields
              (V.obj elementFields', reps ++ [rep])
            | _ => (el, reps)) reps arr
          (V.obj (objUpdate seg.name (V.list arr') fields), reps')
        | _ => (V.obj fields, reps)
      else
        match objGet seg.name fields with
        | some (.obj keyFields) =>
          let (keyFields', rep) := extract_keys pfx keyFields
          (V.obj (objUpdate seg.name (V.obj keyFields') fields), reps ++ [rep])
        | _ => (V.obj fields, reps)
    | _ => (v, reps)
  | seg :: seg2 :: rest, pfx, v, reps =>
    match v with
    | .obj fields =>
      if seg.is_list then
        match objGet seg.name fields with
        | some (.list arr) =>
          let (arr', reps') := stmap (fun reps el =>
            get_representations (seg2 :: rest) pfx el reps) reps arr
          (V.obj (objUpdate seg.name (V.list arr') fields), reps')
        | _ => (V.obj fields, reps)
      else
        match objGet seg.name fields with
        | some next =>
          let (next', reps') := get_representations (seg2 :: rest) pfx next reps
          (V.obj (objUpdate seg.name next' fields), reps')
        | none => (V.obj fields, reps)
    | _ => (v, reps)
termination_by structural path _ _ _ => path

/-- Embedding of `take_value(n, values)`: `None` once `n` runs past the end,
otherwise the `n`-th entity and the incremented index.  (The source
`mem::take`s the consumed slot, which is never read again, so the model
leaves `values` untouched.) -/
def take_value (n : Nat) (values : List V) : Option (V × Nat) :=
  if h : n < values.length then some (values[n], n + 1) else none

/-- Embedding of `flatten_values(target, path, n, values)`: walk `target`
along `path` exactly like `get_representations`, and at the last segment
merge the next unconsumed entity (if any) into each reached site.  Returns
the mutated target and the final entity index. -/
def flatten_values : List Seg → V → Nat → List V → V × Nat
  | [], target, n, _ => (target, n)
  | [seg], target, n, values =>
    match target with
    | .obj fields =>
      if seg.is_list then
        match objGet seg.name fields with
        | some (.list arr) =>
          let (arr', n') := stmap (fun n el =>
            match take_value n values with
            | some (value, n') => (mergeData el value, n')
            | none => (el, n)) n arr
          (V.obj (objUpdate seg.name (V.list arr') fields), n')
        | _ => (V.obj fields, n)
      else
        match objGet seg.name fields with
        | some t =>
          match take_value n values with
          | some (value, n') => (V.obj (objUpdate seg.name (mergeData t value) fields), n')
          | none => (V.obj fields, n)
        | none => (V.obj fields, n)
    | _ => (target, n)
  | seg :: seg2 :: rest, target, n, values =>
    match target with
    | .obj fields =>
      if seg.is_list then
        match objGet seg.name fields with
        | some (.list arr) =>
          let (arr', n') := stmap (fun n el =>
            flatten_values (seg2 :: rest) el n values) n arr
          (V.obj (objUpdate seg.name (V.list arr') fields), n')
        | _ => (V.obj fields, n)
      else
        match objGet seg.name fields with
        | some next =>
          let (next', n') := flatten_values (seg2 :: rest) next n values
          (V.obj (objUpdate seg.name next' fields), n')
        | none => (V.obj fields, n)
    | _ => (target, n)
termination_by structural path _ _ _ => path

/-- Embedding of `Pos` (the line/column of an error location). -/
structure Pos where
  line : Nat
  column : Nat
  deriving Repr, DecidableEq

/-- Embedding of `ServerError { message, locations }`. -/
structure ServerError where
  message : String
  locations : List Pos
  deriving Repr, DecidableEq

/-- Embedding of `Response { data, errors }`. -/
structure Response where
  data : V
  errors : List ServerError
  deriving Repr

/-- Outcome of one `Coordinator::query` call: `Ok(response)` or a transport
error, modelled by its rendered message (`err.to_string()`). -/
abbrev QueryResult := Except String Response

/-- Embedding of `merge_errors(target, errors)`: append each error with its
locations cleared (`locations: Default::default()`). -/
def merge_errors (target : List ServerError) (errors : List ServerError) : List ServerError :=
  target ++ errors.map (fun err => { message := err.message, locations := [] })

/-- Embedding of `execute_fetch_node`, applied to the coordinator's reply:
on `Ok` with no errors merge the data; on `Ok` with errors append the
errors (locations cleared) and drop the data; on `Err` append a single
transport `ServerError`. -/
def execute_fetch_node (current : Response) (res : QueryResult) : Response :=
  match res with
  | .ok resp =>
    if resp.errors.isEmpty then
      { current with data := mergeData current.data resp.data }
    else
      { current with errors := merge_errors current.errors resp.errors }
  | .error err =>
    { current with errors := current.errors ++ [{ message := err, locations := [] }] }

/-- The variables value a flatten dispatches:
`variables.insert("representations", List(representations))`. -/
def flatten_vars (reps : List V) : V := V.obj [("representations", V.list reps)]

/-- Embedding of `execute_flatten_node`.  The coordinator is modelled as a
function from the dispatched variables to the reply.  Phase 1 collects the
representations (mutating the response data); phase 2 dispatches; phase 3
integrates the `_entities` list of an error-free reply (the source's
`data.remove("_entities")` only mutates the local, dropped reply object, so
a lookup is the faithful rendering); phase 4 handles errors like a fetch. -/
def execute_flatten_node (current : Response) (path : List Seg) (pfx : Nat)
    (coordinator : V → QueryResult) : Response :=
  let collected := get_representations path pfx current.data []
  let res := coordinator (flatten_vars collected.2)
  let current := { current with data := collected.1 }
  match res with
  | .ok resp =>
    if resp.errors.isEmpty then
      match resp.data with
      | .obj dataFields =>
        match objGet "_entities" dataFields with
        | some (.list values) =>
          { current with data := (flatten_values path current.data 0 values).1 }
        | _ => current
      | _ => current
    else
      { current with errors := merge_errors current.errors resp.errors }
  | .error err =>
    { current with errors := current.errors ++ [{ message := err, locations := [] }] }

/-- Phases 3 and 4 of `execute_flatten_node` in isolation: integrate one
coordinator reply into the already-collected response.  A theorem below
shows the whole node is collection followed by one dispatch followed by
exactly this integration of the reply. -/
def flatten_integrate (current : Response) (path : List Seg) (res : QueryResult) : Response :=
  match res with
  | .ok resp =>
    if resp.errors.isEmpty then
      match resp.data with
      | .obj dataFields =>
        match objGet "_entities" dataFields with
        | some (.list values) =>
          { current with data := (flatten_values path current.data 0 values).1 }
        | _ => current
      | _ => current
    else
      { current with errors := merge_errors current.errors resp.errors }
  | .error err =>
    { current with errors := current.errors ++ [{ message := err, locations := [] }] }

/-! ## Input validator (`crates/core/src/validation/utils.rs`) -/

/-- Embedding of `validation::utils::PathSegment`. -/
inductive VPathSeg : Type where
  | name (s : String)
  | index (i : Nat)
  deriving Repr, DecidableEq

/-- Embedding of `PathNode { parent: Option<&PathNode>, segment }`. -/
inductive PathNode : Type where
  | node (parent : Option PathNode) (segment : VPathSeg)
  deriving Repr

/-- `PathNode::new(name)`. -/
def PathNode.root (name : String) : PathNode := .node none (.name name)

/-- `PathNode::index(idx)`. -/
def PathNode.idx (self : PathNode) (i : Nat) : PathNode := .node (some self) (.index i)

/-- `PathNode::name(name)`. -/
def PathNode.field (self : PathNode) (n : String) : PathNode := .node (some self) (.name n)

/-- The `Display` of a path segment. -/
def VPathSeg.render : VPathSeg → String
  | .name s => s
  | .index i => Nat.repr i

/-- The `Display` of `PathNode`: parents first, separated by dots. -/
def PathNode.render : PathNode → String
  | .node none seg => seg.render
  | .node (some parent) seg => parent.render ++ "." ++ seg.render

/-- Embedding of `valid_error(path_node, msg)`:
`format!("\"{}\", {}", path_node, msg)`. -/
def valid_error (pathNode : PathNode) (msg : String) : String :=
  "\"" ++ pathNode.render ++ "\", " ++ msg

mutual

/-- Embedding of `parser::types::BaseType`: a named type or a list type. -/
inductive BaseType : Type where
  | named (name : String)
  | list (elem : GType)

/-- Embedding of `parser::types::Type { base, nullable }`. -/
inductive GType : Type where
  | mk (base : BaseType) (nullable : Bool)

end

/-- The `base` field of a `Type`. -/
def GType.base : GType → BaseType
  | .mk b _ => b

/-- The `nullable` field of a `Type`. -/
def GType.nullable : GType → Bool
  | .mk _ n => n

mutual

/-- The `Display` of `BaseType`: the name, or `[T]` for a list. -/
def BaseType.render : BaseType → String
  | .named name => name
  | .list elem => "[" ++ GType.render elem ++ "]"

/-- The `Display` of `Type`: the base, followed by `!` when non-nullable. -/
def GType.render : GType → String
  | .mk base nullable => BaseType.render base ++ (if nullable then "" else "!")

end

/-- Embedding of `schema::TypeKind`. -/
inductive TypeKind : Type where
  | scalar
  | object
  | interface
  | union
  | enum
  | inputObject
  deriving Repr, DecidableEq

/-- Embedding of `MetaInputValue` (the fields used by the validator:
`name`, `ty`, `default_value`). -/
structure MetaInputValue : Type where
  name : String
  ty : GType
  default_value : Option V

/-- Embedding of `MetaType` (the fields used by the validator: `name`,
`kind`, the key set of `enum_values`, and `input_fields` in declaration
order). -/
structure MetaType : Type where
  name : String
  kind : TypeKind
  enum_values : List String
  input_fields : List MetaInputValue

/-- Embedding of `ComposedSchema` (the `types` map, insertion-ordered). -/
structure ComposedSchema : Type where
  types : List (String × MetaType)

/-- `schema.types.get(type_name)` (first match in the assoc list). -/
def typesGet (schema : ComposedSchema) (name : String) : Option MetaType :=
  (schema.types.find? (fun kv => kv.1 = name)).map Prod.snd

/-- `matches!(value, ConstValue::Null)`. -/
def isNullV : V → Bool
  | .null => true
  | _ => false

/-- Embedding of `is_valid_scalar_value`.  `numInt` is a serde number for
which `is_i64() || is_u64()` holds, `numFloat` one for which it does not
(so the `Int`/`ID` guards reject it and fall through to `false`). -/
def is_valid_scalar_value (typeName : String) (value : V) : Bool :=
  match typeName, value with
  | "Int", .numInt _ => true
  | "Float", .numInt _ => true
  | "Float", .numFloat => true
  | "String", .str _ => true
  | "Boolean", .boolean _ => true
  | "ID", .str _ => true
  | "ID", .numInt _ => true
  | _, _ => false

/-- Bound needed for termination: a value found in an object is smaller
than the field list. -/
theorem objGet_sizeOf_lt {k : String} {l : List (String × V)} {v : V}
    (h : objGet k l = some v) : sizeOf v < sizeOf l := by
  induction l with
  | nil => simp [objGet] at h
  | cons hd tl ih =>
    obtain ⟨k', v'⟩ := hd
    rw [objGet] at h
    split at h
    · cases h
      simp
      omega
    · have := ih h
      simp
      omega

mutual

/-- Embedding of `is_valid_input_value(schema, ty, value, path_node)`:
`None` when valid, otherwise the rendered error.  A non-nullable type
rejects `null` with `expected type "T"` (the rendered type carries the
`!`); otherwise the base type is checked. -/
def is_valid_input_value (schema : ComposedSchema) (ty : GType) (value : V)
    (pathNode : PathNode) : Option String :=
  match ty with
  | .mk tyBase tyNullable =>
    if tyNullable = false then
      if isNullV value then
        some (valid_error pathNode
          ("expected type \"" ++ GType.render (.mk tyBase tyNullable) ++ "\""))
      else is_valid_input_base_value schema tyBase value pathNode
    else
      is_valid_input_base_value schema tyBase value pathNode
termination_by (sizeOf value, sizeOf ty, 1)

/-- Embedding of the inner `is_valid_input_base_value`. -/
def is_valid_input_base_value (schema : ComposedSchema) (baseTy : BaseType) (value : V)
    (pathNode : PathNode) : Option String :=
  match baseTy with
  | .list elementTy =>
    match value with
    | .list elems => firstElemError schema elementTy elems pathNode 0
    | .null => none
    | other => is_valid_input_value schema elementTy other pathNode
  | .named typeName =>
    if isNullV value then none
    else
      match typesGet schema typeName with
      | some ty =>
        match ty.kind with
        | .scalar =>
          if is_valid_scalar_value ty.name value then none
          else some (valid_error pathNode ("expected type \"" ++ typeName ++ "\""))
        | .enum =>
          match value with
          | .enum ev =>
            if !(ty.enum_values.contains ev) then
              some (valid_error pathNode
                ("enumeration type \"" ++ ty.name ++ "\" does not contain the value \"" ++ ev ++ "\""))
            else none
          | _ => some (valid_error pathNode ("expected type \"" ++ typeName ++ "\""))
        | .inputObject =>
          match value with
          | .obj values =>
            match checkInputFields schema ty.name ty.input_fields values pathNode with
            | some reason => some reason
            | none =>
              match (values.map Prod.fst).find?
                  (fun k => !((ty.input_fields.map MetaInputValue.name).contains k)) with
              | some name =>
                some (valid_error pathNode
                  ("unknown field \"" ++ name ++ "\" of type \"" ++ ty.name ++ "\""))
              | none => none
          | _ => some (valid_error pathNode ("expected type \"" ++ typeName ++ "\""))
        | _ => none
      | none => none
termination_by (sizeOf value, sizeOf baseTy, 0)

/-- The `elements.iter().enumerate().find_map(...)` of the list case:
the first element error, with the path extended by the index. -/
def firstElemError (schema : ComposedSchema) (elementTy : GType) (elems : List V)
    (pathNode : PathNode) (i : Nat) : Option String :=
  match elems with
  | [] => none
  | e :: rest =>
    match is_valid_input_value schema elementTy e (pathNode.idx i) with
    | some reason => some reason
    | none => firstElemError schema elementTy rest pathNode (i + 1)
termination_by (sizeOf elems, sizeOf elementTy, 2)

/-- The `for field in ty.input_fields.values()` loop: recursively validate
each declared field present in the value; a missing non-nullable field
without default reports `required but not provided`. -/
def checkInputFields (schema : ComposedSchema) (tyName : String)
    (fields : List MetaInputValue) (values : List (String × V))
    (pathNode : PathNode) : Option String :=
  match fields with
  | [] => none
  | field :: rest =>
    match hv : objGet field.name values with
    | some v =>
      match is_valid_input_value schema field.ty v (pathNode.field field.name) with
      | some reason => some reason
      | none => checkInputFields schema tyName rest values pathNode
    | none =>
      if field.ty.nullable = false && field.default_value.isNone then
        some (valid_error pathNode
          ("field \"" ++ field.name ++ "\" of type \"" ++ tyName ++ "\" is required but not provided"))
      else checkInputFields schema tyName rest values pathNode
termination_by (sizeOf values, sizeOf fields, 2)
decreasing_by
  all_goals simp_wf
  · exact Prod.Lex.left _ _ (objGet_sizeOf_lt hv)
  · exact Prod.Lex.right _ (Prod.Lex.left _ _ (by omega))
  · exact Prod.Lex.right _ (Prod.Lex.left _ _ (by omega))

end

/-! ## Specification devices

Definitions used only to state properties of the embedded program:
pointers into a value tree, the BTreeMap sortedness invariant, leaf key
paths, the call-site count of a flatten walk and key-cleanliness
predicates. -/

/-- One step of a pointer into a value tree: an object key or a list
index. -/
inductive Step : Type where
  | key (k : String)
  | idx (i : Nat)
  deriving Repr, DecidableEq

/-- Look up a pointer in a value: object fields by key, list elements by
index. -/
def lookupPath : V → List Step → Option V
  | v, [] => some v
  | .obj fields, .key k :: rest =>
    match objGet k fields with
    | some v => lookupPath v rest
    | none => none
  | .list elems, .idx i :: rest =>
    match elems[i]? with
    | some v => lookupPath v rest
    | none => none
  | _, _ :: _ => none

/-- A non-null scalar: neither null nor a container. -/
def isNonNullScalar : V → Bool
  | .null => false
  | .list _ => false
  | .obj _ => false
  | _ => true

/-- All keys of `rest` are strictly above `k`. -/
def keysAbove (k : String) : List (String × V) → Bool
  | [] => true
  | (k', _) :: rest => strLt k k' && keysAbove k rest

mutual

/-- The BTreeMap invariant, recursively: every object has strictly
ascending keys and well-formed values; lists have well-formed elements. -/
def vWF : V → Bool
  | .obj fields => fieldsWF fields
  | .list elems => elemsWF elems
  | _ => true

/-- `vWF` on an object's field list. -/
def fieldsWF : List (String × V) → Bool
  | [] => true
  | (k, v) :: rest => vWF v && keysAbove k rest && fieldsWF rest

/-- `vWF` on a list's elements. -/
def elemsWF : List V → Bool
  | [] => true
  | v :: rest => vWF v && elemsWF rest

end

mutual

/-- The leaf key paths of a fragment: the maximal chains of nested object
keys.  A non-object (or an empty object) contributes the empty path. -/
def leafPaths : V → List (List String)
  | .obj (f :: fs) => leafPathsFields (f :: fs)
  | _ => [[]]

/-- Leaf key paths contributed by an object's fields. -/
def leafPathsFields : List (String × V) → List (List String)
  | [] => []
  | (k, v) :: rest => (leafPaths v).map (fun p => k :: p) ++ leafPathsFields rest

end

/-- No leaf path of one set is a prefix of (or equal to) a leaf path of
the other. -/
def pathsPrefixFree (l1 l2 : List (List String)) : Bool :=
  l1.all (fun p1 => l2.all (fun p2 => !(p1.isPrefixOf p2) && !(p2.isPrefixOf p1)))

/-- Plain set-disjointness of two path sets. -/
def pathsSetDisjoint (l1 l2 : List (List String)) : Bool :=
  l1.all (fun p1 => !(l2.contains p1))

/-- Pointers whose lookup may change during a flatten walk along `path`:
those that follow the whole path, or stop early at an ancestor of a
terminal site.  Every other pointer diverges from the path and is
untouched. -/
def mayTouch : List Seg → List Step → Bool
  | _, [] => true
  | [], _ => true
  | seg :: rest, .key k :: more =>
    if k = seg.name then
      if seg.is_list then
        match more with
        | [] => true
        | .idx _ :: more2 => mayTouch rest more2
        | .key _ :: _ => false
      else mayTouch rest more
    else false
  | _ :: _, .idx _ :: _ => false

/-- The top-level keys of an object value avoid the prefix `p` (trivially
true for non-objects). -/
def topKeysClean (p : String) : V → Bool
  | .obj fields => fields.all (fun kv => !(strStartsWith kv.1 p))
  | _ => true

/-- The synthetic key prefix `__key<pfx>_` of a flatten node. -/
def keyPrefix (pfx : Nat) : String := "__key" ++ Nat.repr pfx ++ "_"

/-- Every object reached at the terminal step of `path` in `v` has no
top-level key starting with `__key<pfx>_`. -/
def terminalObjsClean : List Seg → Nat → V → Bool
  | [], _, _ => true
  | [seg], pfx, v =>
    match v with
    | .obj fields =>
      if seg.is_list then
        match objGet seg.name fields with
        | some (.list arr) => arr.all (topKeysClean (keyPrefix pfx))
        | _ => true
      else
        match objGet seg.name fields with
        | some w => topKeysClean (keyPrefix pfx) w
        | none => true
    | _ => true
  | seg :: seg2 :: rest, pfx, v =>
    match v with
    | .obj fields =>
      if seg.is_list then
        match objGet seg.name fields with
        | some (.list arr) => arr.all (terminalObjsClean (seg2 :: rest) pfx)
        | _ => true
      else
        match objGet seg.name fields with
        | some next => terminalObjsClean (seg2 :: rest) pfx next
        | none => true
    | _ => true
termination_by structural path _ _ => path

/-- The number of `take_value` call sites a flatten walk visits along
`path` in `v`: one per present terminal field, one per element of a
terminal list field. -/
def siteCount : List Seg → V → Nat
  | [], _ => 0
  | [seg], v =>
    match v with
    | .obj fields =>
      if seg.is_list then
        match objGet seg.name fields with
        | some (.list arr) => arr.length
        | _ => 0
      else
        match objGet seg.name fields with
        | some _ => 1
        | none => 0
    | _ => 0
  | seg :: seg2 :: rest, v =>
    match v with
    | .obj fields =>
      if seg.is_list then
        match objGet seg.name fields with
        | some (.list arr) => (arr.map (siteCount (seg2 :: rest))).sum
        | _ => 0
      else
        match objGet seg.name fields with
        | some next => siteCount (seg2 :: rest) next
        | none => 0
    | _ => 0
termination_by structural path _ => path

/-- Shape test: is the value an object. -/
def isObjV : V → Bool
  | .obj _ => true
  | _ => false

/-- Shape test: is the value a list. -/
def isListV : V → Bool
  | .list _ => true
  | _ => false

/-- The `_entities` list of a subgraph reply's data, when present as a
list field of an object. -/
def entitiesOf : V → Option (List V)
  | .obj fields =>
    match objGet "_entities" fields with
    | some (.list values) => some values
    | _ => none
  | _ => none

/-! ## Order lemmas for the key order -/

theorem listCharLt_irrefl (l : List Char) : listCharLt l l = false := by
  induction l with
  | nil => rfl
  | cons a as ih => simp [listCharLt, ih]

theorem listCharLt_trans {l1 l2 l3 : List Char} (h12 : listCharLt l1 l2 = true)
    (h23 : listCharLt l2 l3 = true) : listCharLt l1 l3 = true := by
  induction l1 generalizing l2 l3 with
  | nil =>
    cases l2 with
    | nil => simp [listCharLt] at h12
    | cons b bs =>
      cases l3 with
      | nil => simp [listCharLt] at h23
      | cons c cs => rfl
  | cons a as ih =>
    cases l2 with
    | nil => simp [listCharLt] at h12
    | cons b bs =>
      cases l3 with
      | nil => simp [listCharLt] at h23
      | cons c cs =>
        rw [listCharLt] at h12 h23 ⊢
        by_cases hab : a < b
        · by_cases hbc : b < c
          · simp [lt_trans hab hbc]
          · by_cases hcb : c < b
            · simp [hbc, hcb] at h23
            · have hbceq : b = c := le_antisymm (le_of_not_lt hcb) (le_of_not_lt hbc)
              subst hbceq
              simp [hab]
        · by_cases hba : b < a
          · simp [hab, hba] at h12
          · have habeq : a = b := le_antisymm (le_of_not_lt hba) (le_of_not_lt hab)
            subst habeq
            simp [hab] at h12
            by_cases hac : a < c
            · simp [hac]
            · by_cases hca : c < a
              · simp [hac, hca] at h23
              · rw [if_neg hac, if_neg hca] at h23 ⊢
                exact ih h12 h23

theorem listCharLt_conn {l1 l2 : List Char} (h12 : listCharLt l1 l2 = false)
    (h21 : listCharLt l2 l1 = false) : l1 = l2 := by
  induction l1 generalizing l2 with
  | nil =>
    cases l2 with
    | nil => rfl
    | cons b bs => simp [listCharLt] at h12
  | cons a as ih =>
    cases l2 with
    | nil => simp [listCharLt] at h21
    | cons b bs =>
      rw [listCharLt] at h12 h21
      by_cases hab : a < b
      · simp [hab] at h12
      · by_cases hba : b < a
        · simp [hba] at h21
        · have habeq : a = b := le_antisymm (le_of_not_lt hba) (le_of_not_lt hab)
          subst habeq
          simp [hab] at h12 h21
          rw [ih h12 h21]

theorem strLt_irrefl (a : String) : strLt a a = false := listCharLt_irrefl a.data

theorem strLt_trans {a b c : String} (h1 : strLt a b = true) (h2 : strLt b c = true) :
    strLt a c = true := listCharLt_trans h1 h2

theorem strLt_conn {a b : String} (h1 : strLt a b = false) (h2 : strLt b a = false) :
    a = b := String.ext (listCharLt_conn h1 h2)

theorem strLt_asymm {a b : String} (h : strLt a b = true) : strLt b a = false := by
  by_contra hc
  have h2 : strLt b a = true := by
    cases hba : strLt b a
    · exact absurd hba hc
    · rfl
  have := strLt_trans h h2
  rw [strLt_irrefl] at this
  exact Bool.false_ne_true this

theorem strLt_of_eq_false_of_ne {a b : String} (h : strLt a b = false) (hne : a ≠ b) :
    strLt b a = true := by
  cases hba : strLt b a
  · exact absurd (strLt_conn h hba) hne
  · rfl

theorem ne_of_strLt {a b : String} (h : strLt a b = true) : a ≠ b := by
  intro he
  subst he
  rw [strLt_irrefl] at h
  exact Bool.noConfusion h

/-! ## Association-list (BTreeMap) lemmas -/

/-- Strictly ascending keys at one level (the top-level part of `vWF`). -/
def sortedKeys : List (String × V) → Bool
  | [] => true
  | (k, _) :: rest => keysAbove k rest && sortedKeys rest

theorem bnot_eq_true {b : Bool} (h : ¬ b = true) : b = false := by
  cases b
  · rfl
  · exact absurd rfl h

theorem keysAbove_strLt_trans {k k' : String} {l : List (String × V)}
    (h : keysAbove k' l = true) (hlt : strLt k k' = true) : keysAbove k l = true := by
  induction l with
  | nil => rfl
  | cons hd tl ih =>
    obtain ⟨k2, v2⟩ := hd
    rw [keysAbove, Bool.and_eq_true] at h
    rw [keysAbove, Bool.and_eq_true]
    exact ⟨strLt_trans hlt h.1, ih h.2⟩

theorem keysAbove_objGet_none {k : String} {l : List (String × V)}
    (h : keysAbove k l = true) : objGet k l = none := by
  induction l with
  | nil => rfl
  | cons hd tl ih =>
    obtain ⟨k', v'⟩ := hd
    rw [keysAbove, Bool.and_eq_true] at h
    rw [objGet, if_neg (ne_of_strLt h.1)]
    exact ih h.2

theorem strLt_of_keysAbove_objGet {k0 k : String} {l : List (String × V)} {v : V}
    (ha : keysAbove k0 l = true) (hg : objGet k l = some v) : strLt k0 k = true := by
  induction l with
  | nil => simp [objGet] at hg
  | cons hd tl ih =>
    obtain ⟨k', v'⟩ := hd
    rw [keysAbove, Bool.and_eq_true] at ha
    rw [objGet] at hg
    split at hg
    · rename_i he
      subst he
      exact ha.1
    · exact ih ha.2 hg

theorem objGet_btInsert_self (k : String) (v : V) (l : List (String × V)) :
    objGet k (btInsert k v l) = some v := by
  induction l with
  | nil => simp [btInsert, objGet]
  | cons hd tl ih =>
    obtain ⟨k', v'⟩ := hd
    rw [btInsert]
    split
    · simp [objGet]
    · split
      · simp [objGet]
      · rename_i h1 h2
        rw [objGet, if_neg h2]
        exact ih

theorem objGet_btInsert_ne {k1 k : String} (hne : k1 ≠ k) (v : V) (l : List (String × V)) :
    objGet k1 (btInsert k v l) = objGet k1 l := by
  induction l with
  | nil => simp [btInsert, objGet, hne]
  | cons hd tl ih =>
    obtain ⟨k', v'⟩ := hd
    rw [btInsert]
    split
    · rw [objGet, if_neg hne]
    · split
      · rename_i h1 h2
        subst h2
        rw [objGet, if_neg hne, objGet, if_neg hne]
      · rename_i h1 h2
        by_cases hk : k1 = k'
        · subst hk
          rw [objGet, if_pos rfl, objGet, if_pos rfl]
        · rw [objGet, if_neg hk, objGet, if_neg hk]
          exact ih

theorem objGet_objUpdate_self {k : String} {l : List (String × V)} {old : V}
    (h : objGet k l = some old) (v : V) :
    objGet k (objUpdate k v l) = some v := by
  induction l with
  | nil => simp [objGet] at h
  | cons hd tl ih =>
    obtain ⟨k', v'⟩ := hd
    rw [objGet] at h
    rw [objUpdate]
    split at h
    · rename_i he
      rw [if_pos he, objGet, if_pos he]
    · rename_i he
      rw [if_neg he, objGet, if_neg he]
      exact ih h

theorem objGet_objUpdate_ne {k1 k : String} (hne : k1 ≠ k) (v : V) (l : List (String × V)) :
    objGet k1 (objUpdate k v l) = objGet k1 l := by
  induction l with
  | nil => rfl
  | cons hd tl ih =>
    obtain ⟨k', v'⟩ := hd
    rw [objUpdate]
    split
    · rename_i he
      subst he
      rw [objGet, if_neg hne, objGet, if_neg hne]
    · by_cases hk : k1 = k'
      · subst hk
        rw [objGet, if_pos rfl, objGet, if_pos rfl]
      · rw [objGet, if_neg hk, objGet, if_neg hk]
        exact ih

theorem keysAbove_objUpdate (k0 k : String) (v : V) (l : List (String × V)) :
    keysAbove k0 (objUpdate k v l) = keysAbove k0 l := by
  induction l with
  | nil => rfl
  | cons hd tl ih =>
    obtain ⟨k', v'⟩ := hd
    rw [objUpdate]
    split
    · rw [keysAbove, keysAbove]
    · rw [keysAbove, keysAbove, ih]

theorem keysAbove_btInsert {k0 k : String} {l : List (String × V)}
    (h : keysAbove k0 l = true) (hlt : strLt k0 k = true) (v : V) :
    keysAbove k0 (btInsert k v l) = true := by
  induction l with
  | nil => simp [btInsert, keysAbove, hlt]
  | cons hd tl ih =>
    obtain ⟨k', v'⟩ := hd
    rw [keysAbove, Bool.and_eq_true] at h
    rw [btInsert]
    split
    · rw [keysAbove, keysAbove, hlt, h.1, Bool.true_and, Bool.true_and]
      exact h.2
    · split
      · rw [keysAbove, hlt, Bool.true_and]
        exact h.2
      · rw [keysAbove, h.1, Bool.true_and]
        exact ih h.2

theorem sortedKeys_objUpdate {l : List (String × V)} (h : sortedKeys l = true)
    (k : String) (v : V) : sortedKeys (objUpdate k v l) = true := by
  induction l with
  | nil => rfl
  | cons hd tl ih =>
    obtain ⟨k', v'⟩ := hd
    rw [sortedKeys, Bool.and_eq_true] at h
    rw [objUpdate]
    split
    · rw [sortedKeys, h.1, Bool.true_and]
      exact h.2
    · rw [sortedKeys, keysAbove_objUpdate, h.1, Bool.true_and]
      exact ih h.2

theorem sortedKeys_btInsert {l : List (String × V)} (h : sortedKeys l = true)
    (k : String) (v : V) : sortedKeys (btInsert k v l) = true := by
  induction l with
  | nil => simp [btInsert, sortedKeys, keysAbove]
  | cons hd tl ih =>
    obtain ⟨k', v'⟩ := hd
    rw [sortedKeys, Bool.and_eq_true] at h
    rw [btInsert]
    split
    · rename_i hlt
      rw [sortedKeys, keysAbove, hlt, Bool.true_and, Bool.and_eq_true]
      constructor
      · exact keysAbove_strLt_trans h.1 hlt
      · rw [sortedKeys, h.1, Bool.true_and]
        exact h.2
    · split
      · rename_i h1 h2
        subst h2
        rw [sortedKeys, h.1, Bool.true_and]
        exact h.2
      · rename_i h1 h2
        rw [sortedKeys, Bool.and_eq_true]
        constructor
        · exact keysAbove_btInsert h.1 (strLt_of_eq_false_of_ne (bnot_eq_true h1) h2) v
        · exact ih h.2

theorem sortedKeys_mergeObj {t : List (String × V)} (ht : sortedKeys t = true)
    (f : List (String × V)) : sortedKeys (mergeObj t f) = true := by
  induction f generalizing t with
  | nil => exact ht
  | cons hd rest ih =>
    obtain ⟨k, v⟩ := hd
    rw [mergeObj]
    cases hg : objGet k t with
    | some old => exact ih (sortedKeys_objUpdate ht k (mergeData old v))
    | none => exact ih (sortedKeys_btInsert ht k v)

/-- The pointwise characterization of the object merge loop: per key, a
fragment binding is merged into an existing one, inserted when absent, and
target bindings without a fragment counterpart survive. -/
theorem objGet_mergeObj {t f : List (String × V)} (ht : sortedKeys t = true)
    (hf : sortedKeys f = true) (k : String) :
    objGet k (mergeObj t f) =
      match objGet k f with
      | some fv =>
        match objGet k t with
        | some tv => some (mergeData tv fv)
        | none => some fv
      | none => objGet k t := by
  induction f generalizing t with
  | nil => simp [mergeObj, objGet]
  | cons hd rest ih =>
    obtain ⟨k0, v0⟩ := hd
    rw [sortedKeys, Bool.and_eq_true] at hf
    rw [mergeObj]
    cases hg : objGet k0 t with
    | some old =>
      rw [ih (sortedKeys_objUpdate ht k0 (mergeData old v0)) hf.2]
      by_cases hk : k = k0
      · subst hk
        rw [keysAbove_objGet_none hf.1, objGet, if_pos rfl,
          objGet_objUpdate_self hg (mergeData old v0), hg]
      · rw [objGet_objUpdate_ne hk (mergeData old v0) t, objGet, if_neg hk]
    | none =>
      rw [ih (sortedKeys_btInsert ht k0 v0) hf.2]
      by_cases hk : k = k0
      · subst hk
        rw [keysAbove_objGet_none hf.1, objGet, if_pos rfl, objGet_btInsert_self, hg]
      · rw [objGet_btInsert_ne hk v0 t, objGet, if_neg hk]

/-- Sorted association lists are determined by their lookups. -/
theorem sortedKeys_ext {l1 l2 : List (String × V)} (h1 : sortedKeys l1 = true)
    (h2 : sortedKeys l2 = true) (h : ∀ k, objGet k l1 = objGet k l2) : l1 = l2 := by
  induction l1 generalizing l2 with
  | nil =>
    cases l2 with
    | nil => rfl
    | cons hd tl =>
      obtain ⟨k2, v2⟩ := hd
      have := h k2
      rw [objGet, objGet, if_pos rfl] at this
      exact Option.noConfusion this
  | cons hd tl ih =>
    obtain ⟨k1, v1⟩ := hd
    cases l2 with
    | nil =>
      have := h k1
      rw [objGet, objGet, if_pos rfl] at this
      exact Option.noConfusion this
    | cons hd2 tl2 =>
      obtain ⟨k2, v2⟩ := hd2
      rw [sortedKeys, Bool.and_eq_true] at h1 h2
      have hkeq : k1 = k2 := by
        by_contra hne
        have e1 := h k1
        rw [objGet, if_pos rfl, objGet, if_neg hne] at e1
        have e2 := (h k2).symm
        rw [objGet, if_pos rfl] at e2
        rw [objGet, if_neg (fun hx => hne hx.symm)] at e2
        have l21 := strLt_of_keysAbove_objGet h2.1 e1.symm
        have l12 := strLt_of_keysAbove_objGet h1.1 e2.symm
        rw [strLt_asymm l12] at l21
        exact Bool.noConfusion l21
      subst hkeq
      have hv : v1 = v2 := by
        have e1 := h k1
        rw [objGet, if_pos rfl, objGet, if_pos rfl] at e1
        exact Option.some.inj e1
      subst hv
      have htl : ∀ k, objGet k tl = objGet k tl2 := by
        intro k
        by_cases hk : k = k1
        · subst hk
          rw [keysAbove_objGet_none h1.1, keysAbove_objGet_none h2.1]
        · have := h k
          rw [objGet, if_neg hk, objGet, if_neg hk] at this
          exact this
      rw [ih h1.2 h2.2 htl]

theorem mergeList_eq_zipWith {xs ys : List V} (h : xs.length = ys.length) :
    mergeList xs ys = List.zipWith mergeData xs ys := by
  induction xs generalizing ys with
  | nil =>
    cases ys with
    | nil => rfl
    | cons y ys => simp at h
  | cons x xs ih =>
    cases ys with
    | nil => simp at h
    | cons y ys =>
      rw [mergeList, List.zipWith_cons_cons, ih (by simpa using h)]

/-! ## Claim theorems -/

/-- C2: `merge_data` satisfies the case table: a null target is replaced by
the fragment; object into object merges recursively per present key and
inserts absent keys; equal-length lists merge pairwise by index; lists of
unequal length drop the fragment; every other combination (scalar target or
type mismatch) leaves the target unchanged. -/
theorem merge_data_case_table :
    (∀ f : V, mergeData .null f = f) ∧
    (∀ t f : List (String × V), sortedKeys t = true → sortedKeys f = true →
      mergeData (.obj t) (.obj f) = .obj (mergeObj t f) ∧
      (∀ k, objGet k (mergeObj t f) =
        match objGet k f, objGet k t with
        | some fv, some tv => some (mergeData tv fv)
        | some fv, none => some fv
        | none, o => o)) ∧
    (∀ xs ys : List V, xs.length = ys.length →
      mergeData (.list xs) (.list ys) = .list (List.zipWith mergeData xs ys)) ∧
    (∀ xs ys : List V, xs.length ≠ ys.length →
      mergeData (.list xs) (.list ys) = .list xs) ∧
    (∀ t f : V, isNullV t = false → (isObjV t && isObjV f) = false →
      (isListV t && isListV f) = false → mergeData t f = t) := by
  refine ⟨fun f => by cases f <;> rfl, ?_, ?_, ?_, ?_⟩
  · intro t f ht hf
    refine ⟨rfl, ?_⟩
    intro k
    rw [objGet_mergeObj ht hf k]
    cases objGet k f <;> cases objGet k t <;> rfl
  · intro xs ys h
    rw [mergeData, if_pos h, mergeList_eq_zipWith h]
  · intro xs ys h
    rw [mergeData, if_neg h]
  · intro t f hnull hobj hlist
    cases t <;> cases f <;> first
      | rfl
      | (simp [isNullV] at hnull; done)
      | (simp [isObjV] at hobj; done)
      | (simp [isListV] at hlist; done)

/-- Witness for C2 at concrete inputs: each hypothesis of the case table
discharged on small values. -/
theorem merge_data_case_table_witness :
    mergeData .null (V.numInt 7) = V.numInt 7 ∧
    objGet "b" (mergeObj [("a", V.null)] [("b", V.numInt 2)]) = some (V.numInt 2) ∧
    mergeData (.list [V.null]) (.list [V.numInt 3]) = .list [V.numInt 3] ∧
    mergeData (.list [V.null]) (.list [V.numInt 3, V.numInt 4]) = .list [V.null] ∧
    mergeData (V.numInt 5) (V.numInt 6) = V.numInt 5 := by
  obtain ⟨h1, h2, h3, h4, h5⟩ := merge_data_case_table
  refine ⟨h1 (V.numInt 7), ?_, ?_, ?_, ?_⟩
  · rw [(h2 [("a", V.null)] [("b", V.numInt 2)] rfl rfl).2 "b"]
    rfl
  · rw [h3 [V.null] [V.numInt 3] rfl]
    rfl
  · rw [h4 [V.null] [V.numInt 3, V.numInt 4] (by simp)]
  · exact h5 (V.numInt 5) (V.numInt 6) rfl rfl rfl

/-- C4: a fetch whose reply is `Ok` with no errors merges the reply data
into the response and appends no error; `Ok` with errors appends each error
with locations cleared and does not merge; a transport failure appends
exactly one `ServerError` carrying the transport message with empty
locations and does not merge. -/
theorem execute_fetch_node_spec :
    (∀ (current resp : Response), resp.errors = [] →
      (execute_fetch_node current (.ok resp)).data = mergeData current.data resp.data ∧
      (execute_fetch_node current (.ok resp)).errors = current.errors) ∧
    (∀ (current resp : Response), resp.errors ≠ [] →
      (execute_fetch_node current (.ok resp)).data = current.data ∧
      (execute_fetch_node current (.ok resp)).errors =
        current.errors ++ resp.errors.map (fun e => { message := e.message, locations := [] })) ∧
    (∀ (current : Response) (msg : String),
      (execute_fetch_node current (.error msg)).data = current.data ∧
      (execute_fetch_node current (.error msg)).errors =
        current.errors ++ [{ message := msg, locations := [] }]) := by
  refine ⟨?_, ?_, ?_⟩
  · intro current resp h
    rw [execute_fetch_node, if_pos (by simp [h])]
    exact ⟨rfl, rfl⟩
  · intro current resp h
    rw [execute_fetch_node, if_neg (by simp [h])]
    exact ⟨rfl, rfl⟩
  · intro current msg
    rw [execute_fetch_node]
    exact ⟨rfl, rfl⟩

/-- Witness for C4: the three reply cases at concrete inputs. -/
theorem execute_fetch_node_spec_witness :
    (execute_fetch_node ⟨V.null, []⟩ (.ok ⟨V.numInt 1, []⟩)).data = V.numInt 1 ∧
    (execute_fetch_node ⟨V.null, []⟩
      (.ok ⟨V.numInt 1, [⟨"bad", [⟨1, 2⟩]⟩]⟩)).data = V.null ∧
    (execute_fetch_node ⟨V.null, []⟩
      (.ok ⟨V.numInt 1, [⟨"bad", [⟨1, 2⟩]⟩]⟩)).errors = [⟨"bad", []⟩] ∧
    (execute_fetch_node ⟨V.null, []⟩ (.error "io down")).errors = [⟨"io down", []⟩] := by
  obtain ⟨h1, h2, h3⟩ := execute_fetch_node_spec
  refine ⟨?_, ?_, ?_, ?_⟩
  · rw [(h1 ⟨V.null, []⟩ ⟨V.numInt 1, []⟩ rfl).1]
    rfl
  · rw [(h2 ⟨V.null, []⟩ ⟨V.numInt 1, [⟨"bad", [⟨1, 2⟩]⟩]⟩ (by simp)).1]
  · rw [(h2 ⟨V.null, []⟩ ⟨V.numInt 1, [⟨"bad", [⟨1, 2⟩]⟩]⟩ (by simp)).2]
    rfl
  · rw [(h3 ⟨V.null, []⟩ "io down").2]
    rfl

/-! ## Well-formedness preservation -/

theorem mem_of_objGet {k : String} {l : List (String × V)} {v : V}
    (h : objGet k l = some v) : (k, v) ∈ l := by
  induction l with
  | nil => simp [objGet] at h
  | cons hd tl ih =>
    obtain ⟨k', v'⟩ := hd
    rw [objGet] at h
    split at h
    · rename_i he
      subst he
      cases h
      exact List.mem_cons_self _ _
    · exact List.mem_cons_of_mem _ (ih h)

theorem fieldsWF_sortedKeys {l : List (String × V)} (h : fieldsWF l = true) :
    sortedKeys l = true := by
  induction l with
  | nil => rfl
  | cons hd tl ih =>
    obtain ⟨k, v⟩ := hd
    rw [fieldsWF, Bool.and_eq_true, Bool.and_eq_true] at h
    rw [sortedKeys, Bool.and_eq_true]
    exact ⟨h.1.2, ih h.2⟩

theorem fieldsWF_value {l : List (String × V)} (h : fieldsWF l = true)
    {k : String} {v : V} (hm : (k, v) ∈ l) : vWF v = true := by
  induction l with
  | nil => simp at hm
  | cons hd tl ih =>
    obtain ⟨k', v'⟩ := hd
    rw [fieldsWF, Bool.and_eq_true, Bool.and_eq_true] at h
    rcases List.mem_cons.mp hm with he | hm2
    · cases he
      exact h.1.1
    · exact ih h.2 hm2

theorem fieldsWF_of {l : List (String × V)} (hs : sortedKeys l = true)
    (hv : ∀ k v, (k, v) ∈ l → vWF v = true) : fieldsWF l = true := by
  induction l with
  | nil => rfl
  | cons hd tl ih =>
    obtain ⟨k, v⟩ := hd
    rw [sortedKeys, Bool.and_eq_true] at hs
    rw [fieldsWF, Bool.and_eq_true, Bool.and_eq_true]
    exact ⟨⟨hv k v (List.mem_cons_self _ _), hs.1⟩,
      ih hs.2 (fun k' v' hm => hv k' v' (List.mem_cons_of_mem _ hm))⟩

theorem elemsWF_eq_all (l : List V) : elemsWF l = l.all vWF := by
  induction l with
  | nil => rfl
  | cons hd tl ih => rw [elemsWF, List.all_cons, ih]

theorem mem_btInsert {k1 : String} {v1 : V} {k : String} {v : V}
    {l : List (String × V)} (h : (k1, v1) ∈ btInsert k v l) :
    (k1 = k ∧ v1 = v) ∨ (k1, v1) ∈ l := by
  induction l with
  | nil =>
    simp [btInsert] at h
    exact Or.inl h
  | cons hd tl ih =>
    obtain ⟨k', v'⟩ := hd
    rw [btInsert] at h
    split at h
    · rcases List.mem_cons.mp h with he | hm
      · cases he
        exact Or.inl ⟨rfl, rfl⟩
      · exact Or.inr hm
    · split at h
      · rcases List.mem_cons.mp h with he | hm
        · cases he
          exact Or.inl ⟨rfl, rfl⟩
        · exact Or.inr (List.mem_cons_of_mem _ hm)
      · rcases List.mem_cons.mp h with he | hm
        · cases he
          exact Or.inr (List.mem_cons_self _ _)
        · rcases ih hm with h1 | h2
          · exact Or.inl h1
          · exact Or.inr (List.mem_cons_of_mem _ h2)

theorem mem_objUpdate {k1 : String} {v1 : V} {k : String} {v : V}
    {l : List (String × V)} (h : (k1, v1) ∈ objUpdate k v l) :
    v1 = v ∨ (k1, v1) ∈ l := by
  induction l with
  | nil => simp [objUpdate] at h
  | cons hd tl ih =>
    obtain ⟨k', v'⟩ := hd
    rw [objUpdate] at h
    split at h
    · rcases List.mem_cons.mp h with he | hm
      · cases he
        exact Or.inl rfl
      · exact Or.inr (List.mem_cons_of_mem _ hm)
    · rcases List.mem_cons.mp h with he | hm
      · cases he
        exact Or.inr (List.mem_cons_self _ _)
      · rcases ih hm with h1 | h2
        · exact Or.inl h1
        · exact Or.inr (List.mem_cons_of_mem _ h2)

theorem keysAbove_mem_strLt {k0 : String} {l : List (String × V)}
    (ha : keysAbove k0 l = true) {k : String} {v : V} (hm : (k, v) ∈ l) :
    strLt k0 k = true := by
  induction l with
  | nil => simp at hm
  | cons hd tl ih =>
    obtain ⟨k', v'⟩ := hd
    rw [keysAbove, Bool.and_eq_true] at ha
    rcases List.mem_cons.mp hm with he | hm2
    · cases he
      exact ha.1
    · exact ih ha.2 hm2

theorem objGet_of_mem_sorted {l : List (String × V)} (hs : sortedKeys l = true)
    {k : String} {v : V} (hm : (k, v) ∈ l) : objGet k l = some v := by
  induction l with
  | nil => simp at hm
  | cons hd tl ih =>
    obtain ⟨k', v'⟩ := hd
    rw [sortedKeys, Bool.and_eq_true] at hs
    rcases List.mem_cons.mp hm with he | hm2
    · cases he
      rw [objGet, if_pos rfl]
    · have hne : k ≠ k' := fun he2 =>
        ne_of_strLt (keysAbove_mem_strLt hs.1 hm2) he2.symm
      rw [objGet, if_neg hne]
      exact ih hs.2 hm2

theorem sizeOf_value_lt_of_mem {k : String} {v : V} {l : List (String × V)}
    (h : (k, v) ∈ l) : sizeOf v < sizeOf l := by
  have h1 := List.sizeOf_lt_of_mem h
  have h2 : sizeOf v < sizeOf (k, v) := by
    simp
  omega

theorem vWF_mergeData_fuel :
    ∀ fuel f t, sizeOf f ≤ fuel → vWF t = true → vWF f = true →
      vWF (mergeData t f) = true := by
  intro fuel
  induction fuel with
  | zero =>
    intro f t hle
    cases f <;> simp at hle
  | succ n ih =>
    intro f t hle ht hf
    cases t with
    | null => cases f <;> exact hf
    | obj tf =>
      cases f with
      | obj ff =>
        rw [mergeData, vWF]
        rw [vWF] at ht hf
        apply fieldsWF_of (sortedKeys_mergeObj (fieldsWF_sortedKeys ht) ff)
        intro k v hm
        have hg := objGet_of_mem_sorted (sortedKeys_mergeObj (fieldsWF_sortedKeys ht) ff) hm
        rw [objGet_mergeObj (fieldsWF_sortedKeys ht) (fieldsWF_sortedKeys hf) k] at hg
        cases hgf : objGet k ff with
        | some fv =>
          rw [hgf] at hg
          have hfv : vWF fv = true := fieldsWF_value hf (mem_of_objGet hgf)
          have hsz : sizeOf fv < sizeOf (V.obj ff) := by
            have := sizeOf_value_lt_of_mem (mem_of_objGet hgf)
            simp
            omega
          cases hgt : objGet k tf with
          | some tv =>
            rw [hgt] at hg
            cases hg
            exact ih fv tv (by omega) (fieldsWF_value ht (mem_of_objGet hgt)) hfv
          | none =>
            rw [hgt] at hg
            cases hg
            exact hfv
        | none =>
          rw [hgf] at hg
          exact fieldsWF_value ht (mem_of_objGet hg)
      | null => exact ht
      | numInt m => exact ht
      | numFloat => exact ht
      | str s => exact ht
      | boolean b => exact ht
      | binary => exact ht
      | enum e => exact ht
      | list ys => exact ht
    | list xs =>
      cases f with
      | list ys =>
        rw [mergeData]
        split
        · rename_i hlen
          rw [vWF] at ht hf ⊢
          rw [elemsWF_eq_all] at ht hf ⊢
          clear hlen
          induction xs generalizing ys with
          | nil => cases ys <;> rfl
          | cons x xs ihx =>
            cases ys with
            | nil => exact ht
            | cons y ys =>
              rw [List.all_cons, Bool.and_eq_true] at ht hf
              rw [mergeList, List.all_cons, Bool.and_eq_true]
              have hsz : sizeOf (V.list (y :: ys)) ≤ n + 1 := hle
              simp at hsz
              refine ⟨ih y x (by omega) ht.1 hf.1, ?_⟩
              exact ihx ht.2 ys (by simp; omega) hf.2
        · exact ht
      | null => exact ht
      | numInt m => exact ht
      | numFloat => exact ht
      | str s => exact ht
      | boolean b => exact ht
      | binary => exact ht
      | enum e => exact ht
      | obj ff => exact ht
    | numInt m => cases f <;> exact ht
    | numFloat => cases f <;> exact ht
    | str s => cases f <;> exact ht
    | boolean b => cases f <;> exact ht
    | binary => cases f <;> exact ht
    | enum e => cases f <;> exact ht

theorem vWF_mergeData {t f : V} (ht : vWF t = true) (hf : vWF f = true) :
    vWF (mergeData t f) = true :=
  vWF_mergeData_fuel (sizeOf f) f t (le_refl _) ht hf

theorem keysAbove_filter {k : String} {l : List (String × V)}
    (h : keysAbove k l = true) (p : String × V → Bool) :
    keysAbove k (l.filter p) = true := by
  induction l with
  | nil => rfl
  | cons hd tl ih =>
    obtain ⟨k', v'⟩ := hd
    rw [keysAbove, Bool.and_eq_true] at h
    rw [List.filter_cons]
    split
    · rw [keysAbove, Bool.and_eq_true]
      exact ⟨h.1, ih h.2⟩
    · exact ih h.2

theorem fieldsWF_filter {l : List (String × V)} (h : fieldsWF l = true)
    (p : String × V → Bool) : fieldsWF (l.filter p) = true := by
  induction l with
  | nil => rfl
  | cons hd tl ih =>
    obtain ⟨k, v⟩ := hd
    rw [fieldsWF, Bool.and_eq_true, Bool.and_eq_true] at h
    rw [List.filter_cons]
    split
    · rw [fieldsWF, Bool.and_eq_true, Bool.and_eq_true]
      exact ⟨⟨h.1.1, keysAbove_filter h.1.2 p⟩, ih h.2⟩
    · exact ih h.2

theorem fieldsWF_btInsert {l : List (String × V)} (h : fieldsWF l = true)
    {v : V} (hv : vWF v = true) (k : String) : fieldsWF (btInsert k v l) = true := by
  apply fieldsWF_of (sortedKeys_btInsert (fieldsWF_sortedKeys h) k v)
  intro k1 v1 hm
  rcases mem_btInsert hm with ⟨_, he⟩ | hm2
  · subst he
    exact hv
  · exact fieldsWF_value h hm2

theorem fieldsWF_foldl_btInsert {taken : List (String × V)}
    (hv : ∀ kv ∈ taken, vWF kv.2 = true) (g : String × V → String) :
    ∀ acc, fieldsWF acc = true →
      fieldsWF (taken.foldl (fun acc kv => btInsert (g kv) kv.2 acc) acc) = true := by
  induction taken with
  | nil => intro acc hacc; exact hacc
  | cons hd tl ih =>
    intro acc hacc
    rw [List.foldl_cons]
    exact ih (fun kv hm => hv kv (List.mem_cons_of_mem _ hm)) _
      (fieldsWF_btInsert hacc (hv hd (List.mem_cons_self _ _)) (g hd))

theorem extract_keys_wf {m : List (String × V)} (h : fieldsWF m = true) (pfx : Nat) :
    fieldsWF (extract_keys pfx m).1 = true ∧ vWF (extract_keys pfx m).2 = true := by
  constructor
  · exact fieldsWF_filter h _
  · rw [extract_keys, vWF]
    apply fieldsWF_foldl_btInsert ?_ _ [] rfl
    intro kv hm
    exact fieldsWF_value h (List.mem_of_mem_filter hm)

/-- C7 counterexample: two `merge_data` insertions into an empty object,
key "b" first and key "a" second, iterate as "a", "b" — ascending key
order — and not in first-insertion order "b", "a". -/
theorem object_insertion_order_counterexample :
    mergeData (mergeData (V.obj []) (V.obj [("b", V.numInt 1)])) (V.obj [("a", V.numInt 2)])
      = V.obj [("a", V.numInt 2), ("b", V.numInt 1)] ∧
    ([("a", V.numInt 2), ("b", V.numInt 1)].map Prod.fst) ≠ ["b", "a"] := by
  refine ⟨rfl, ?_⟩
  intro h
  simp at h

/-- C7 (amended): response objects are BTreeMaps: iteration yields keys in
strictly ascending key order, independent of insertion sequence;
`merge_data` preserves the recursively-sorted invariant and both outputs
of `extract_keys` satisfy it. -/
theorem object_order_sorted :
    (∀ t f : V, vWF t = true → vWF f = true → vWF (mergeData t f) = true) ∧
    (∀ (pfx : Nat) (m : List (String × V)), fieldsWF m = true →
      fieldsWF (extract_keys pfx m).1 = true ∧ vWF (extract_keys pfx m).2 = true) :=
  ⟨fun _ _ ht hf => vWF_mergeData ht hf, fun pfx m h => extract_keys_wf h pfx⟩

/-- Witness for the amended C7 at concrete inputs. -/
theorem object_order_sorted_witness :
    vWF (mergeData (V.obj [("b", V.numInt 1)]) (V.obj [("a", V.numInt 2)])) = true ∧
    fieldsWF (extract_keys 0 [("__key0_id", V.str "7"), ("name", V.str "n")]).1 = true := by
  obtain ⟨h1, h2⟩ := object_order_sorted
  exact ⟨h1 (V.obj [("b", V.numInt 1)]) (V.obj [("a", V.numInt 2)]) rfl rfl,
    (h2 0 [("__key0_id", V.str "7"), ("name", V.str "n")] rfl).1⟩

/-! ## Scalar preservation (C6) -/

theorem lookupPath_null {ptr : List Step} {s : V} (h : lookupPath V.null ptr = some s) :
    s = V.null := by
  cases ptr with
  | nil =>
    rw [lookupPath] at h
    exact (Option.some.inj h).symm
  | cons st rest =>
    cases st <;> simp [lookupPath] at h

theorem presv_fuel : ∀ fuel : Nat,
    (∀ f t (ptr : List Step) (s : V), sizeOf f ≤ fuel → lookupPath t ptr = some s →
      isNonNullScalar s = true → lookupPath (mergeData t f) ptr = some s) ∧
    (∀ (ff tf : List (String × V)) (ptr : List Step) (s : V), sizeOf ff ≤ fuel →
      lookupPath (V.obj tf) ptr = some s → isNonNullScalar s = true →
      lookupPath (V.obj (mergeObj tf ff)) ptr = some s) := by
  intro fuel
  induction fuel with
  | zero =>
    constructor
    · intro f t ptr s hle
      cases f <;> simp at hle
    · intro ff tf ptr s hle
      cases ff <;> simp at hle
  | succ n ih =>
    obtain ⟨ihD, ihO⟩ := ih
    constructor
    · intro f t ptr s hle hl hs
      cases t with
      | null =>
        rw [lookupPath_null hl] at hs
        simp [isNonNullScalar] at hs
      | obj tf =>
        cases f with
        | obj ff =>
          have hsz : sizeOf (V.obj ff) ≤ n + 1 := hle
          simp at hsz
          exact ihO ff tf ptr s (by omega) hl hs
        | null => exact hl
        | numInt m => exact hl
        | numFloat => exact hl
        | str s2 => exact hl
        | boolean b => exact hl
        | binary => exact hl
        | enum e => exact hl
        | list ys => exact hl
      | list xs =>
        cases f with
        | list ys =>
          rw [mergeData]
          split
          · rename_i hlen
            rw [mergeList_eq_zipWith hlen]
            cases ptr with
            | nil =>
              rw [lookupPath] at hl
              cases Option.some.inj hl
              simp [isNonNullScalar] at hs
            | cons st rest =>
              cases st with
              | key k => simp [lookupPath] at hl
              | idx i =>
                rw [lookupPath] at hl ⊢
                cases hx : xs[i]? with
                | none => rw [hx] at hl; exact Option.noConfusion hl
                | some x =>
                  rw [hx] at hl
                  have hilt : i < xs.length := by
                    by_contra hge
                    rw [List.getElem?_eq_none (by omega)] at hx
                    exact Option.noConfusion hx
                  have hiy : i < ys.length := by omega
                  have hy : ys[i]? = some ys[i] := List.getElem?_eq_getElem hiy
                  rw [List.getElem?_zipWith, hx, hy]
                  have hmem : ys[i] ∈ ys := List.getElem_mem hiy
                  have hsy : sizeOf ys[i] < sizeOf ys := List.sizeOf_lt_of_mem hmem
                  have hsz : sizeOf (V.list ys) ≤ n + 1 := hle
                  simp at hsz
                  exact ihD ys[i] x rest s (by omega) hl hs
          · exact hl
        | null => exact hl
        | numInt m => exact hl
        | numFloat => exact hl
        | str s2 => exact hl
        | boolean b => exact hl
        | binary => exact hl
        | enum e => exact hl
        | obj ff => exact hl
      | numInt m => cases f <;> exact hl
      | numFloat => cases f <;> exact hl
      | str s2 => cases f <;> exact hl
      | boolean b => cases f <;> exact hl
      | binary => cases f <;> exact hl
      | enum e => cases f <;> exact hl
    · intro ff tf ptr s hle hl hs
      cases ff with
      | nil => exact hl
      | cons hd rest =>
        obtain ⟨k0, v0⟩ := hd
        have hsz : sizeOf ((k0, v0) :: rest) ≤ n + 1 := hle
        simp at hsz
        rw [mergeObj]
        cases hg : objGet k0 tf with
        | some old =>
          refine ihO rest _ ptr s (by omega) ?_ hs
          cases ptr with
          | nil =>
            rw [lookupPath] at hl ⊢
            cases Option.some.inj hl
            simp [isNonNullScalar] at hs
          | cons st rest2 =>
            cases st with
            | idx i => simp [lookupPath] at hl
            | key k =>
              rw [lookupPath] at hl ⊢
              by_cases hk : k = k0
              · subst hk
                rw [hg] at hl
                rw [objGet_objUpdate_self hg]
                exact ihD v0 old rest2 s (by omega) hl hs
              · rw [objGet_objUpdate_ne hk]
                exact hl
        | none =>
          refine ihO rest _ ptr s (by omega) ?_ hs
          cases ptr with
          | nil =>
            rw [lookupPath] at hl ⊢
            cases Option.some.inj hl
            simp [isNonNullScalar] at hs
          | cons st rest2 =>
            cases st with
            | idx i => simp [lookupPath] at hl
            | key k =>
              rw [lookupPath] at hl ⊢
              by_cases hk : k = k0
              · subst hk
                rw [hg] at hl
                exact Option.noConfusion hl
              · rw [objGet_btInsert_ne hk]
                exact hl

/-- C6: `merge_data` never overwrites a non-null scalar, at any depth: any
pointer that reaches a non-null scalar in the target reaches the same
scalar after merging any fragment. -/
theorem merge_preserves_scalars (t f : V) (ptr : List Step) (s : V)
    (hl : lookupPath t ptr = some s) (hs : isNonNullScalar s = true) :
    lookupPath (mergeData t f) ptr = some s :=
  (presv_fuel (sizeOf f)).1 f t ptr s (le_refl _) hl hs

/-- Witness for C6: a scalar survives a colliding fragment at a concrete
input. -/
theorem merge_preserves_scalars_witness :
    lookupPath
      (mergeData (V.obj [("x", V.numInt 1)]) (V.obj [("x", V.numInt 9), ("y", V.numInt 2)]))
      [Step.key "x"] = some (V.numInt 1) :=
  merge_preserves_scalars (V.obj [("x", V.numInt 1)])
    (V.obj [("x", V.numInt 9), ("y", V.numInt 2)]) [Step.key "x"] (V.numInt 1) rfl rfl

/-! ## Merge commutativity on prefix-free-disjoint fragments (C5) -/

theorem leafPaths_ne_nil_fuel : ∀ fuel v, sizeOf v ≤ fuel → leafPaths v ≠ [] := by
  intro fuel
  induction fuel with
  | zero =>
    intro v hle
    cases v <;> simp at hle
  | succ n ih =>
    intro v hle
    cases v with
    | obj fields =>
      cases fields with
      | nil => simp [leafPaths]
      | cons hd tl =>
        obtain ⟨k0, v0⟩ := hd
        rw [leafPaths, leafPathsFields]
        intro h
        rcases List.append_eq_nil.mp h with ⟨h1, _⟩
        rw [List.map_eq_nil_iff] at h1
        have hsz : sizeOf (V.obj ((k0, v0) :: tl)) ≤ n + 1 := hle
        simp at hsz
        exact ih v0 (by omega) h1
    | null => simp [leafPaths]
    | numInt m => simp [leafPaths]
    | numFloat => simp [leafPaths]
    | str s => simp [leafPaths]
    | boolean b => simp [leafPaths]
    | binary => simp [leafPaths]
    | enum e => simp [leafPaths]
    | list xs => simp [leafPaths]

theorem leafPaths_ne_nil (v : V) : leafPaths v ≠ [] :=
  leafPaths_ne_nil_fuel (sizeOf v) v (le_refl _)

theorem pathsPrefixFree_prop {l1 l2 : List (List String)}
    (h : pathsPrefixFree l1 l2 = true) {p1 p2 : List String}
    (h1 : p1 ∈ l1) (h2 : p2 ∈ l2) :
    p1.isPrefixOf p2 = false ∧ p2.isPrefixOf p1 = false := by
  rw [pathsPrefixFree, List.all_eq_true] at h
  have ha := h p1 h1
  rw [List.all_eq_true] at ha
  have hb := ha p2 h2
  rw [Bool.and_eq_true, Bool.not_eq_true', Bool.not_eq_true'] at hb
  exact hb

theorem pf_nonempty_obj {v1 v2 : V}
    (h : pathsPrefixFree (leafPaths v1) (leafPaths v2) = true) :
    (∃ f1, v1 = V.obj f1 ∧ f1 ≠ []) ∧ (∃ f2, v2 = V.obj f2 ∧ f2 ≠ []) := by
  have hn1 := leafPaths_ne_nil v1
  have hn2 := leafPaths_ne_nil v2
  constructor
  · obtain ⟨p2, hp2⟩ := List.exists_mem_of_ne_nil _ hn2
    have key : [] ∈ leafPaths v1 → False := by
      intro hm
      have := (pathsPrefixFree_prop h hm hp2).1
      simp [List.isPrefixOf] at this
    cases v1 with
    | obj fields =>
      cases fields with
      | nil => exact absurd (by simp [leafPaths]) key
      | cons hd tl => exact ⟨hd :: tl, rfl, by simp⟩
    | null => exact absurd (by simp [leafPaths]) key
    | numInt m => exact absurd (by simp [leafPaths]) key
    | numFloat => exact absurd (by simp [leafPaths]) key
    | str s => exact absurd (by simp [leafPaths]) key
    | boolean b => exact absurd (by simp [leafPaths]) key
    | binary => exact absurd (by simp [leafPaths]) key
    | enum e => exact absurd (by simp [leafPaths]) key
    | list xs => exact absurd (by simp [leafPaths]) key
  · obtain ⟨p1, hp1⟩ := List.exists_mem_of_ne_nil _ hn1
    have key : [] ∈ leafPaths v2 → False := by
      intro hm
      have := (pathsPrefixFree_prop h hp1 hm).2
      simp [List.isPrefixOf] at this
    cases v2 with
    | obj fields =>
      cases fields with
      | nil => exact absurd (by simp [leafPaths]) key
      | cons hd tl => exact ⟨hd :: tl, rfl, by simp⟩
    | null => exact absurd (by simp [leafPaths]) key
    | numInt m => exact absurd (by simp [leafPaths]) key
    | numFloat => exact absurd (by simp [leafPaths]) key
    | str s => exact absurd (by simp [leafPaths]) key
    | boolean b => exact absurd (by simp [leafPaths]) key
    | binary => exact absurd (by simp [leafPaths]) key
    | enum e => exact absurd (by simp [leafPaths]) key
    | list xs => exact absurd (by simp [leafPaths]) key

theorem mem_leafPathsFields {fields : List (String × V)} {k : String} {w : V}
    {p : List String} (hm : (k, w) ∈ fields) (hp : p ∈ leafPaths w) :
    (k :: p) ∈ leafPathsFields fields := by
  induction fields with
  | nil => simp at hm
  | cons hd tl ih =>
    obtain ⟨k', w'⟩ := hd
    rw [leafPathsFields]
    rcases List.mem_cons.mp hm with he | hm2
    · cases he
      exact List.mem_append_left _ (List.mem_map_of_mem _ hp)
    · exact List.mem_append_right _ (ih hm2)

theorem mem_leafPaths_obj {fields : List (String × V)} {k : String} {w : V}
    {p : List String} (hm : (k, w) ∈ fields) (hp : p ∈ leafPaths w) :
    (k :: p) ∈ leafPaths (V.obj fields) := by
  cases fields with
  | nil => simp at hm
  | cons hd tl =>
    rw [leafPaths]
    exact mem_leafPathsFields hm hp

theorem pf_decompose {f1 f2 : List (String × V)} {k : String} {w1 w2 : V}
    (h : pathsPrefixFree (leafPaths (V.obj f1)) (leafPaths (V.obj f2)) = true)
    (h1 : objGet k f1 = some w1) (h2 : objGet k f2 = some w2) :
    pathsPrefixFree (leafPaths w1) (leafPaths w2) = true := by
  rw [pathsPrefixFree, List.all_eq_true]
  intro p1 hp1
  rw [List.all_eq_true]
  intro p2 hp2
  have m1 := mem_leafPaths_obj (mem_of_objGet h1) hp1
  have m2 := mem_leafPaths_obj (mem_of_objGet h2) hp2
  have hp := pathsPrefixFree_prop h m1 m2
  rw [List.isPrefixOf, List.isPrefixOf] at hp
  simp at hp
  rw [Bool.and_eq_true, Bool.not_eq_true', Bool.not_eq_true']
  exact hp

theorem merge_comm_fuel : ∀ fuel : Nat,
    (∀ v1 v2 : V, sizeOf v1 + sizeOf v2 ≤ fuel → vWF v1 = true → vWF v2 = true →
      pathsPrefixFree (leafPaths v1) (leafPaths v2) = true →
      mergeData v1 v2 = mergeData v2 v1) ∧
    (∀ t v1 v2 : V, sizeOf v1 + sizeOf v2 ≤ fuel → vWF t = true → vWF v1 = true →
      vWF v2 = true → pathsPrefixFree (leafPaths v1) (leafPaths v2) = true →
      mergeData (mergeData t v1) v2 = mergeData (mergeData t v2) v1) := by
  intro fuel
  induction fuel with
  | zero =>
    constructor
    · intro v1 v2 hle
      cases v1 <;> simp at hle
    · intro t v1 v2 hle
      cases v1 <;> simp at hle
  | succ n ih =>
    have P1 : ∀ v1 v2 : V, sizeOf v1 + sizeOf v2 ≤ n + 1 → vWF v1 = true →
        vWF v2 = true → pathsPrefixFree (leafPaths v1) (leafPaths v2) = true →
        mergeData v1 v2 = mergeData v2 v1 := by
      intro v1 v2 hle h1 h2 hpf
      obtain ⟨⟨f1, he1, hne1⟩, ⟨f2, he2, hne2⟩⟩ := pf_nonempty_obj hpf
      subst he1
      subst he2
      have hf1 : fieldsWF f1 = true := h1
      have hf2 : fieldsWF f2 = true := h2
      have s1 := fieldsWF_sortedKeys hf1
      have s2 := fieldsWF_sortedKeys hf2
      show V.obj (mergeObj f1 f2) = V.obj (mergeObj f2 f1)
      apply congrArg V.obj
      apply sortedKeys_ext (sortedKeys_mergeObj s1 f2) (sortedKeys_mergeObj s2 f1)
      intro k
      rw [objGet_mergeObj s1 s2 k, objGet_mergeObj s2 s1 k]
      have hsz : sizeOf (V.obj f1) + sizeOf (V.obj f2) ≤ n + 1 := hle
      simp at hsz
      cases hg1 : objGet k f1 with
      | some w1 =>
        cases hg2 : objGet k f2 with
        | some w2 =>
          have hw1 : sizeOf w1 < sizeOf f1 := sizeOf_value_lt_of_mem (mem_of_objGet hg1)
          have hw2 : sizeOf w2 < sizeOf f2 := sizeOf_value_lt_of_mem (mem_of_objGet hg2)
          have hcomm := ih.1 w1 w2 (by omega)
            (fieldsWF_value hf1 (mem_of_objGet hg1))
            (fieldsWF_value hf2 (mem_of_objGet hg2))
            (pf_decompose hpf hg1 hg2)
          show some (mergeData w1 w2) = some (mergeData w2 w1)
          exact congrArg some hcomm
        | none => rfl
      | none =>
        cases hg2 : objGet k f2 with
        | some w2 => rfl
        | none => rfl
    refine ⟨P1, ?_⟩
    intro t v1 v2 hle ht h1 h2 hpf
    obtain ⟨⟨f1, he1, hne1⟩, ⟨f2, he2, hne2⟩⟩ := pf_nonempty_obj hpf
    subst he1
    subst he2
    cases t with
    | null =>
      show mergeData (V.obj f1) (V.obj f2) = mergeData (V.obj f2) (V.obj f1)
      exact P1 _ _ hle h1 h2 hpf
    | obj tf =>
      have htf : fieldsWF tf = true := ht
      have hf1 : fieldsWF f1 = true := h1
      have hf2 : fieldsWF f2 = true := h2
      have st := fieldsWF_sortedKeys htf
      have s1 := fieldsWF_sortedKeys hf1
      have s2 := fieldsWF_sortedKeys hf2
      show V.obj (mergeObj (mergeObj tf f1) f2) = V.obj (mergeObj (mergeObj tf f2) f1)
      apply congrArg V.obj
      apply sortedKeys_ext (sortedKeys_mergeObj (sortedKeys_mergeObj st f1) f2)
        (sortedKeys_mergeObj (sortedKeys_mergeObj st f2) f1)
      intro k
      rw [objGet_mergeObj (sortedKeys_mergeObj st f1) s2 k,
        objGet_mergeObj st s1 k,
        objGet_mergeObj (sortedKeys_mergeObj st f2) s1 k,
        objGet_mergeObj st s2 k]
      have hsz : sizeOf (V.obj f1) + sizeOf (V.obj f2) ≤ n + 1 := hle
      simp at hsz
      cases hgt : objGet k tf with
      | some tv =>
        cases hg1 : objGet k f1 with
        | some w1 =>
          cases hg2 : objGet k f2 with
          | some w2 =>
            have hw1 : sizeOf w1 < sizeOf f1 := sizeOf_value_lt_of_mem (mem_of_objGet hg1)
            have hw2 : sizeOf w2 < sizeOf f2 := sizeOf_value_lt_of_mem (mem_of_objGet hg2)
            have hcomm := ih.2 tv w1 w2 (by omega)
              (fieldsWF_value htf (mem_of_objGet hgt))
              (fieldsWF_value hf1 (mem_of_objGet hg1))
              (fieldsWF_value hf2 (mem_of_objGet hg2))
              (pf_decompose hpf hg1 hg2)
            show some (mergeData (mergeData tv w1) w2) = some (mergeData (mergeData tv w2) w1)
            exact congrArg some hcomm
          | none => rfl
        | none =>
          cases hg2 : objGet k f2 with
          | some w2 => rfl
          | none => rfl
      | none =>
        cases hg1 : objGet k f1 with
        | some w1 =>
          cases hg2 : objGet k f2 with
          | some w2 =>
            have hw1 : sizeOf w1 < sizeOf f1 := sizeOf_value_lt_of_mem (mem_of_objGet hg1)
            have hw2 : sizeOf w2 < sizeOf f2 := sizeOf_value_lt_of_mem (mem_of_objGet hg2)
            have hcomm := ih.1 w1 w2 (by omega)
              (fieldsWF_value hf1 (mem_of_objGet hg1))
              (fieldsWF_value hf2 (mem_of_objGet hg2))
              (pf_decompose hpf hg1 hg2)
            show some (mergeData w1 w2) = some (mergeData w2 w1)
            exact congrArg some hcomm
          | none => rfl
        | none =>
          cases hg2 : objGet k f2 with
          | some w2 => rfl
          | none => rfl
    | list xs => rfl
    | numInt m => rfl
    | numFloat => rfl
    | str s => rfl
    | boolean b => rfl
    | binary => rfl
    | enum e => rfl

/-- C5 counterexample: two object fragments whose leaf key path sets are
disjoint as sets (`["a"]` versus `["a","b"]`), yet merging them into a null
target in the two orders yields different results: set-disjointness of leaf
key paths is not enough for order independence. -/
theorem merge_disjoint_comm_counterexample :
    pathsSetDisjoint (leafPaths (V.obj [("a", V.numInt 5)]))
      (leafPaths (V.obj [("a", V.obj [("b", V.numInt 1)])])) = true ∧
    pathsSetDisjoint (leafPaths (V.obj [("a", V.obj [("b", V.numInt 1)])]))
      (leafPaths (V.obj [("a", V.numInt 5)])) = true ∧
    mergeData (mergeData V.null (V.obj [("a", V.numInt 5)]))
        (V.obj [("a", V.obj [("b", V.numInt 1)])]) ≠
      mergeData (mergeData V.null (V.obj [("a", V.obj [("b", V.numInt 1)])]))
        (V.obj [("a", V.numInt 5)]) := by
  refine ⟨rfl, rfl, ?_⟩
  intro h
  have hA : mergeData (mergeData V.null (V.obj [("a", V.numInt 5)]))
      (V.obj [("a", V.obj [("b", V.numInt 1)])]) = V.obj [("a", V.numInt 5)] := rfl
  have hB : mergeData (mergeData V.null (V.obj [("a", V.obj [("b", V.numInt 1)])]))
      (V.obj [("a", V.numInt 5)]) = V.obj [("a", V.obj [("b", V.numInt 1)])] := rfl
  rw [hA, hB] at h
  simp at h

/-- C5 (amended): `merge_data` is order-independent for fragments whose
leaf key paths are prefix-free-disjoint (no leaf path of one is a prefix
of, or equal to, a leaf path of the other), on BTreeMap-well-formed trees:
merging F1 then F2 into any target T equals merging F2 then F1. -/
theorem merge_disjoint_comm (t f1 f2 : V) (ht : vWF t = true) (h1 : vWF f1 = true)
    (h2 : vWF f2 = true)
    (hpf : pathsPrefixFree (leafPaths f1) (leafPaths f2) = true) :
    mergeData (mergeData t f1) f2 = mergeData (mergeData t f2) f1 :=
  (merge_comm_fuel (sizeOf f1 + sizeOf f2)).2 t f1 f2 (le_refl _) ht h1 h2 hpf

/-- Witness for the amended C5 at concrete inputs. -/
theorem merge_disjoint_comm_witness :
    mergeData (mergeData (V.obj [("t", V.numInt 0)]) (V.obj [("a", V.numInt 1)]))
        (V.obj [("b", V.numInt 2)]) =
      mergeData (mergeData (V.obj [("t", V.numInt 0)]) (V.obj [("b", V.numInt 2)]))
        (V.obj [("a", V.numInt 1)]) :=
  merge_disjoint_comm (V.obj [("t", V.numInt 0)]) (V.obj [("a", V.numInt 1)])
    (V.obj [("b", V.numInt 2)]) rfl rfl rfl rfl

/-! ## Flatten dispatch (C8) -/

/-- C8: `execute_flatten_node` always dispatches the coordinator query,
passing variables `{ representations: [collected list] }`: for every
coordinator its outcome is exactly the integration of the coordinator's
reply at those variables, and the dispatch is observable even when the
collected representation list is empty — a transport error from the
dispatched query still surfaces in the response. -/
theorem execute_flatten_node_dispatch :
    (∀ (current : Response) (path : List Seg) (pfx : Nat) (q : V → QueryResult),
      execute_flatten_node current path pfx q =
        flatten_integrate
          { current with data := (get_representations path pfx current.data []).1 } path
          (q (flatten_vars (get_representations path pfx current.data []).2))) ∧
    (∀ (current : Response) (path : List Seg) (pfx : Nat) (msg : String),
      (get_representations path pfx current.data []).2 = [] →
      (execute_flatten_node current path pfx (fun _ => .error msg)).errors =
        current.errors ++ [{ message := msg, locations := [] }]) ∧
    (∀ reps : List V, flatten_vars reps = V.obj [("representations", V.list reps)]) := by
  refine ⟨?_, ?_, fun reps => rfl⟩
  · intro current path pfx q
    rw [execute_flatten_node]
    cases hres : q (flatten_vars (get_representations path pfx current.data []).2) with
    | ok resp => rw [flatten_integrate]
    | error msg => rw [flatten_integrate]
  · intro current path pfx msg _
    rfl

/-- Witness for C8: a state whose collected representation list is empty
still dispatches — the constant transport-error coordinator's message is
appended to the response. -/
theorem execute_flatten_node_dispatch_witness :
    (get_representations [⟨"u", false⟩] 0 (V.obj [("x", V.numInt 1)]) []).2 = [] ∧
    (execute_flatten_node ⟨V.obj [("x", V.numInt 1)], []⟩ [⟨"u", false⟩] 0
      (fun _ => .error "down")).errors = [⟨"down", []⟩] := by
  refine ⟨rfl, ?_⟩
  rw [execute_flatten_node_dispatch.2.1 ⟨V.obj [("x", V.numInt 1)], []⟩ [⟨"u", false⟩] 0
    "down" rfl]
  rfl

/-! ## Flatten integration frame (C10) -/

theorem stmap_cons (f : σ → V → V × σ) (s : σ) (x : V) (xs : List V) :
    stmap f s (x :: xs) =
      ((f s x).1 :: (stmap f (f s x).2 xs).1, (stmap f (f s x).2 xs).2) := rfl

theorem stmap_length (f : σ → V → V × σ) :
    ∀ (xs : List V) (s : σ), ((stmap f s xs).1).length = xs.length := by
  intro xs
  induction xs with
  | nil => intro s; rfl
  | cons x xs ih =>
    intro s
    rw [stmap_cons]
    simp [ih]

theorem stmap_getElem (f : σ → V → V × σ) :
    ∀ (xs : List V) (s : σ) (i : Nat) (h : i < xs.length),
      ∃ s0, ((stmap f s xs).1)[i]? = some (f s0 xs[i]).1 := by
  intro xs
  induction xs with
  | nil =>
    intro s i h
    simp at h
  | cons x xs ih =>
    intro s i h
    cases i with
    | zero =>
      refine ⟨s, ?_⟩
      rw [stmap_cons]
      simp
    | succ j =>
      have hj : j < xs.length := by simp at h; omega
      obtain ⟨s0, hs0⟩ := ih (f s x).2 j hj
      refine ⟨s0, ?_⟩
      rw [stmap_cons]
      simpa using hs0

theorem mayTouch_nil (ptr : List Step) : mayTouch [] ptr = true := by
  cases ptr with
  | nil => rfl
  | cons st rest => rfl

theorem flatten_values_frame :
    ∀ (path : List Seg) (target : V) (n : Nat) (values : List V) (ptr : List Step),
      mayTouch path ptr = false →
      lookupPath (flatten_values path target n values).1 ptr = lookupPath target ptr := by
  intro path
  induction path with
  | nil =>
    intro target n values ptr h
    cases ptr with
    | nil => simp [mayTouch] at h
    | cons st rest => simp [mayTouch] at h
  | cons seg rest ih =>
    obtain ⟨nm, il⟩ := seg
    intro target n values ptr h
    cases rest with
    | nil =>
      cases target with
      | obj fields =>
        cases il with
        | true =>
          cases hg : objGet nm fields with
          | some w =>
            cases w with
            | list arr =>
              cases ptr with
              | nil => simp [mayTouch] at h
              | cons st more =>
                cases st with
                | idx i => simp only [flatten_values, hg, if_true, if_false, Bool.false_eq_true, lookupPath]
                | key k =>
                  by_cases hk : k = nm
                  · subst hk
                    cases more with
                    | nil => simp [mayTouch] at h
                    | cons st2 more2 =>
                      cases st2 with
                      | idx i => simp [mayTouch, mayTouch_nil] at h
                      | key k2 =>
                        simp only [flatten_values, hg, if_true, if_false, Bool.false_eq_true, lookupPath,
                          objGet_objUpdate_self hg]
                  · simp only [flatten_values, hg, if_true, if_false, Bool.false_eq_true, lookupPath,
                      objGet_objUpdate_ne hk]
            | null => simp only [flatten_values, hg, if_true, if_false, Bool.false_eq_true]
            | numInt m => simp only [flatten_values, hg, if_true, if_false, Bool.false_eq_true]
            | numFloat => simp only [flatten_values, hg, if_true, if_false, Bool.false_eq_true]
            | str s => simp only [flatten_values, hg, if_true, if_false, Bool.false_eq_true]
            | boolean b => simp only [flatten_values, hg, if_true, if_false, Bool.false_eq_true]
            | binary => simp only [flatten_values, hg, if_true, if_false, Bool.false_eq_true]
            | enum e => simp only [flatten_values, hg, if_true, if_false, Bool.false_eq_true]
            | obj f2 => simp only [flatten_values, hg, if_true, if_false, Bool.false_eq_true]
          | none => simp only [flatten_values, hg, if_true, if_false, Bool.false_eq_true]
        | false =>
          cases hg : objGet nm fields with
          | some t0 =>
            cases htv : take_value n values with
            | some pair =>
              obtain ⟨value, n2⟩ := pair
              cases ptr with
              | nil => simp [mayTouch] at h
              | cons st more =>
                cases st with
                | idx i => simp only [flatten_values, hg, htv, if_true, if_false, Bool.false_eq_true, lookupPath]
                | key k =>
                  by_cases hk : k = nm
                  · subst hk
                    simp [mayTouch, mayTouch_nil] at h
                  · simp only [flatten_values, hg, htv, if_true, if_false, Bool.false_eq_true, lookupPath,
                      objGet_objUpdate_ne hk]
            | none => simp only [flatten_values, hg, htv, if_true, if_false, Bool.false_eq_true]
          | none => simp only [flatten_values, hg, if_true, if_false, Bool.false_eq_true]
      | null => rfl
      | numInt m => rfl
      | numFloat => rfl
      | str s => rfl
      | boolean b => rfl
      | binary => rfl
      | enum e => rfl
      | list xs => rfl
    | cons seg2 rest2 =>
      cases target with
      | obj fields =>
        cases il with
        | true =>
          cases hg : objGet nm fields with
          | some w =>
            cases w with
            | list arr =>
              cases ptr with
              | nil => simp [mayTouch] at h
              | cons st more =>
                cases st with
                | idx i => simp only [flatten_values, hg, if_true, if_false, Bool.false_eq_true, lookupPath]
                | key k =>
                  by_cases hk : k = nm
                  · subst hk
                    cases more with
                    | nil => simp [mayTouch] at h
                    | cons st2 more2 =>
                      cases st2 with
                      | key k2 =>
                        simp only [flatten_values, hg, if_true, if_false, Bool.false_eq_true, lookupPath,
                          objGet_objUpdate_self hg]
                      | idx i =>
                        have h2 : mayTouch (seg2 :: rest2) more2 = false := by
                          simpa [mayTouch] using h
                        simp only [flatten_values, hg, if_true, if_false, Bool.false_eq_true, lookupPath,
                          objGet_objUpdate_self hg]
                        by_cases hi : i < arr.length
                        · obtain ⟨s0, hs0⟩ := stmap_getElem
                            (fun n el => flatten_values (seg2 :: rest2) el n values) arr n i hi
                          rw [hs0, List.getElem?_eq_getElem hi]
                          exact ih arr[i] s0 values more2 h2
                        · rw [List.getElem?_eq_none (by
                              rw [stmap_length]
                              omega),
                            List.getElem?_eq_none (by omega)]
                  · simp only [flatten_values, hg, if_true, if_false, Bool.false_eq_true, lookupPath,
                      objGet_objUpdate_ne hk]
            | null => simp only [flatten_values, hg, if_true, if_false, Bool.false_eq_true]
            | numInt m => simp only [flatten_values, hg, if_true, if_false, Bool.false_eq_true]
            | numFloat => simp only [flatten_values, hg, if_true, if_false, Bool.false_eq_true]
            | str s => simp only [flatten_values, hg, if_true, if_false, Bool.false_eq_true]
            | boolean b => simp only [flatten_values, hg, if_true, if_false, Bool.false_eq_true]
            | binary => simp only [flatten_values, hg, if_true, if_false, Bool.false_eq_true]
            | enum e => simp only [flatten_values, hg, if_true, if_false, Bool.false_eq_true]
            | obj f2 => simp only [flatten_values, hg, if_true, if_false, Bool.false_eq_true]
          | none => simp only [flatten_values, hg, if_true, if_false, Bool.false_eq_true]
        | false =>
          cases hg : objGet nm fields with
          | some next =>
            cases ptr with
            | nil => simp [mayTouch] at h
            | cons st more =>
              cases st with
              | idx i => simp only [flatten_values, hg, if_true, if_false, Bool.false_eq_true, lookupPath]
              | key k =>
                by_cases hk : k = nm
                · subst hk
                  have h2 : mayTouch (seg2 :: rest2) more = false := by
                    simpa [mayTouch] using h
                  simp only [flatten_values, hg, if_true, if_false, Bool.false_eq_true, lookupPath,
                    objGet_objUpdate_self hg]
                  exact ih next n values more h2
                · simp only [flatten_values, hg, if_true, if_false, Bool.false_eq_true, lookupPath,
                    objGet_objUpdate_ne hk]
          | none => simp only [flatten_values, hg, if_true, if_false, Bool.false_eq_true]
      | null => rfl
      | numInt m => rfl
      | numFloat => rfl
      | str s => rfl
      | boolean b => rfl
      | binary => rfl
      | enum e => rfl
      | list xs => rfl

/-- C10: during flatten integration of a successful, error-free reply, the
only part of the subgraph result that can enter the response is the
`_entities` list: the resulting data is a function of that list alone
(every other top-level field of the reply data is discarded), every
pointer that diverges from the flatten path reads the same value as
before integration, and the error list is untouched. -/
theorem flatten_integration_frame (current : Response) (path : List Seg) (pfx : Nat)
    (r : Response) (hr : r.errors = []) :
    (execute_flatten_node current path pfx (fun _ => .ok r)).data =
      (match entitiesOf r.data with
       | some vs =>
         (flatten_values path (get_representations path pfx current.data []).1 0 vs).1
       | none => (get_representations path pfx current.data []).1) ∧
    (∀ ptr : List Step, mayTouch path ptr = false →
      lookupPath (execute_flatten_node current path pfx (fun _ => .ok r)).data ptr =
        lookupPath (get_representations path pfx current.data []).1 ptr) ∧
    (execute_flatten_node current path pfx (fun _ => .ok r)).errors = current.errors := by
  have hdata : (execute_flatten_node current path pfx (fun _ => .ok r)).data =
      (match entitiesOf r.data with
       | some vs =>
         (flatten_values path (get_representations path pfx current.data []).1 0 vs).1
       | none => (get_representations path pfx current.data []).1) := by
    rw [execute_flatten_node]
    simp only [hr, List.isEmpty_nil, if_true]
    cases hd : r.data with
    | obj dataFields =>
      cases hge : objGet "_entities" dataFields with
      | some w =>
        cases w with
        | list values => simp only [entitiesOf, hge]
        | null => simp only [entitiesOf, hge]
        | numInt m => simp only [entitiesOf, hge]
        | numFloat => simp only [entitiesOf, hge]
        | str s => simp only [entitiesOf, hge]
        | boolean b => simp only [entitiesOf, hge]
        | binary => simp only [entitiesOf, hge]
        | enum e => simp only [entitiesOf, hge]
        | obj f2 => simp only [entitiesOf, hge]
      | none => simp only [entitiesOf, hge]
    | null => simp only [entitiesOf]
    | numInt m => simp only [entitiesOf]
    | numFloat => simp only [entitiesOf]
    | str s => simp only [entitiesOf]
    | boolean b => simp only [entitiesOf]
    | binary => simp only [entitiesOf]
    | enum e => simp only [entitiesOf]
    | list xs => simp only [entitiesOf]
  refine ⟨hdata, ?_, ?_⟩
  · intro ptr hptr
    rw [hdata]
    cases entitiesOf r.data with
    | some vs => exact flatten_values_frame path _ 0 vs ptr hptr
    | none => rfl
  · rw [execute_flatten_node]
    simp only [hr, List.isEmpty_nil, if_true]
    cases r.data with
    | obj dataFields =>
      cases hge : objGet "_entities" dataFields with
      | some w => cases w <;> simp [hge]
      | none => simp [hge]
    | null => rfl
    | numInt m => rfl
    | numFloat => rfl
    | str s => rfl
    | boolean b => rfl
    | binary => rfl
    | enum e => rfl
    | list xs => rfl

/-- Witness for C10 at a concrete state and reply: the reply's other
top-level field `garbage` is discarded and an untouched pointer reads the
same value. -/
theorem flatten_integration_frame_witness :
    (execute_flatten_node ⟨V.obj [("u", V.obj [("__key0_id", V.str "7")]), ("x", V.numInt 3)], []⟩
      [⟨"u", false⟩] 0
      (fun _ => .ok ⟨V.obj [("_entities", V.list [V.obj [("age", V.numInt 42)]]),
        ("garbage", V.numInt 9)], []⟩)).data =
      V.obj [("u", V.obj [("age", V.numInt 42)]), ("x", V.numInt 3)] ∧
    lookupPath (execute_flatten_node
        ⟨V.obj [("u", V.obj [("__key0_id", V.str "7")]), ("x", V.numInt 3)], []⟩
        [⟨"u", false⟩] 0
        (fun _ => .ok ⟨V.obj [("_entities", V.list [V.obj [("age", V.numInt 42)]]),
          ("garbage", V.numInt 9)], []⟩)).data [Step.key "x"] = some (V.numInt 3) := by
  obtain ⟨h1, h2, h3⟩ := flatten_integration_frame
    ⟨V.obj [("u", V.obj [("__key0_id", V.str "7")]), ("x", V.numInt 3)], []⟩
    [⟨"u", false⟩] 0
    ⟨V.obj [("_entities", V.list [V.obj [("age", V.numInt 42)]]), ("garbage", V.numInt 9)], []⟩
    rfl
  constructor
  · rw [h1]
    rfl
  · rw [h2 [Step.key "x"] rfl]
    rfl

/-! ## Representation and entity counting (C1) -/

theorem take_value_lt {n : Nat} {values : List V} (h : n < values.length) :
    take_value n values = some (values[n], n + 1) := by
  rw [take_value, dif_pos h]

theorem take_value_ge {n : Nat} {values : List V} (h : ¬ n < values.length) :
    take_value n values = none := by
  rw [take_value, dif_neg h]

theorem stmap_take_final (values : List V) :
    ∀ (arr : List V) (n : Nat), n ≤ values.length →
      (stmap (fun n el =>
        match take_value n values with
        | some (value, n') => (mergeData el value, n')
        | none => (el, n)) n arr).2 = min (n + arr.length) values.length := by
  intro arr
  induction arr with
  | nil =>
    intro n h
    show n = min (n + 0) values.length
    omega
  | cons el arr ih =>
    intro n h
    rw [stmap_cons]
    by_cases hn : n < values.length
    · show (stmap _ (match take_value n values with
        | some (value, n') => (mergeData el value, n')
        | none => (el, n)).2 arr).2 = _
      rw [take_value_lt hn]
      show (stmap _ (n + 1) arr).2 = _
      rw [ih (n + 1) (by omega)]
      simp
      omega
    · show (stmap _ (match take_value n values with
        | some (value, n') => (mergeData el value, n')
        | none => (el, n)).2 arr).2 = _
      rw [take_value_ge hn]
      show (stmap _ n arr).2 = _
      rw [ih n h]
      simp
      omega

theorem stmap_flatten_final (values : List V) (rest : List Seg)
    (hrec : ∀ (el : V) (n : Nat), n ≤ values.length →
      (flatten_values rest el n values).2 = min (n + siteCount rest el) values.length) :
    ∀ (arr : List V) (n : Nat), n ≤ values.length →
      (stmap (fun n el => flatten_values rest el n values) n arr).2 =
        min (n + (arr.map (siteCount rest)).sum) values.length := by
  intro arr
  induction arr with
  | nil =>
    intro n h
    show n = min (n + 0) values.length
    omega
  | cons el arr ih =>
    intro n h
    rw [stmap_cons]
    show (stmap _ (flatten_values rest el n values).2 arr).2 = _
    rw [hrec el n h, ih _ (by omega)]
    simp
    omega

theorem flatten_values_final :
    ∀ (path : List Seg) (target : V) (n : Nat) (values : List V),
      n ≤ values.length →
      (flatten_values path target n values).2 =
        min (n + siteCount path target) values.length := by
  intro path
  induction path with
  | nil =>
    intro target n values h
    show n = min (n + siteCount [] target) values.length
    cases target <;> (simp [siteCount]; omega)
  | cons seg rest ih =>
    obtain ⟨nm, il⟩ := seg
    intro target n values h
    cases rest with
    | nil =>
      cases target with
      | obj fields =>
        cases il with
        | true =>
          cases hg : objGet nm fields with
          | some w =>
            cases w with
            | list arr =>
              simp only [flatten_values, hg, if_true, if_false, Bool.false_eq_true,
                siteCount]
              exact stmap_take_final values arr n h
            | null => simp only [flatten_values, hg, if_true, if_false, Bool.false_eq_true, siteCount]; omega
            | numInt m => simp only [flatten_values, hg, if_true, if_false, Bool.false_eq_true, siteCount]; omega
            | numFloat => simp only [flatten_values, hg, if_true, if_false, Bool.false_eq_true, siteCount]; omega
            | str s => simp only [flatten_values, hg, if_true, if_false, Bool.false_eq_true, siteCount]; omega
            | boolean b => simp only [flatten_values, hg, if_true, if_false, Bool.false_eq_true, siteCount]; omega
            | binary => simp only [flatten_values, hg, if_true, if_false, Bool.false_eq_true, siteCount]; omega
            | enum e => simp only [flatten_values, hg, if_true, if_false, Bool.false_eq_true, siteCount]; omega
            | obj f2 => simp only [flatten_values, hg, if_true, if_false, Bool.false_eq_true, siteCount]; omega
          | none => simp only [flatten_values, hg, if_true, if_false, Bool.false_eq_true, siteCount]; omega
        | false =>
          cases hg : objGet nm fields with
          | some t0 =>
            simp only [flatten_values, hg, if_true, if_false, Bool.false_eq_true, siteCount]
            by_cases hn : n < values.length
            · rw [take_value_lt hn]
              show n + 1 = _
              omega
            · rw [take_value_ge hn]
              show n = _
              omega
          | none => simp only [flatten_values, hg, if_true, if_false, Bool.false_eq_true, siteCount]; omega
      | null => simp only [flatten_values, if_true, if_false, Bool.false_eq_true, siteCount]; omega
      | numInt m => simp only [flatten_values, if_true, if_false, Bool.false_eq_true, siteCount]; omega
      | numFloat => simp only [flatten_values, if_true, if_false, Bool.false_eq_true, siteCount]; omega
      | str s => simp only [flatten_values, if_true, if_false, Bool.false_eq_true, siteCount]; omega
      | boolean b => simp only [flatten_values, if_true, if_false, Bool.false_eq_true, siteCount]; omega
      | binary => simp only [flatten_values, if_true, if_false, Bool.false_eq_true, siteCount]; omega
      | enum e => simp only [flatten_values, if_true, if_false, Bool.false_eq_true, siteCount]; omega
      | list xs => simp only [flatten_values, if_true, if_false, Bool.false_eq_true, siteCount]; omega
    | cons seg2 rest2 =>
      cases target with
      | obj fields =>
        cases il with
        | true =>
          cases hg : objGet nm fields with
          | some w =>
            cases w with
            | list arr =>
              simp only [flatten_values, hg, if_true, if_false, Bool.false_eq_true,
                siteCount]
              exact stmap_flatten_final values (seg2 :: rest2)
                (fun el n hn => ih el n values hn) arr n h
            | null => simp only [flatten_values, hg, if_true, if_false, Bool.false_eq_true, siteCount]; omega
            | numInt m => simp only [flatten_values, hg, if_true, if_false, Bool.false_eq_true, siteCount]; omega
            | numFloat => simp only [flatten_values, hg, if_true, if_false, Bool.false_eq_true, siteCount]; omega
            | str s => simp only [flatten_values, hg, if_true, if_false, Bool.false_eq_true, siteCount]; omega
            | boolean b => simp only [flatten_values, hg, if_true, if_false, Bool.false_eq_true, siteCount]; omega
            | binary => simp only [flatten_values, hg, if_true, if_false, Bool.false_eq_true, siteCount]; omega
            | enum e => simp only [flatten_values, hg, if_true, if_false, Bool.false_eq_true, siteCount]; omega
            | obj f2 => simp only [flatten_values, hg, if_true, if_false, Bool.false_eq_true, siteCount]; omega
          | none => simp only [flatten_values, hg, if_true, if_false, Bool.false_eq_true, siteCount]; omega
        | false =>
          cases hg : objGet nm fields with
          | some next =>
            simp only [flatten_values, hg, if_true, if_false, Bool.false_eq_true, siteCount]
            exact ih next n values h
          | none => simp only [flatten_values, hg, if_true, if_false, Bool.false_eq_true, siteCount]; omega
      | null => simp only [flatten_values, if_true, if_false, Bool.false_eq_true, siteCount]; omega
      | numInt m => simp only [flatten_values, if_true, if_false, Bool.false_eq_true, siteCount]; omega
      | numFloat => simp only [flatten_values, if_true, if_false, Bool.false_eq_true, siteCount]; omega
      | str s => simp only [flatten_values, if_true, if_false, Bool.false_eq_true, siteCount]; omega
      | boolean b => simp only [flatten_values, if_true, if_false, Bool.false_eq_true, siteCount]; omega
      | binary => simp only [flatten_values, if_true, if_false, Bool.false_eq_true, siteCount]; omega
      | enum e => simp only [flatten_values, if_true, if_false, Bool.false_eq_true, siteCount]; omega
      | list xs => simp only [flatten_values, if_true, if_false, Bool.false_eq_true, siteCount]; omega

theorem stmap_extract_len (pfx : Nat) :
    ∀ (arr : List V) (s : List V),
      ((stmap (fun reps el =>
        match el with
        | V.obj elementFields =>
          ((V.obj (extract_keys pfx elementFields).1 : V), reps ++ [(extract_keys pfx elementFields).2])
        | _ => (el, reps)) s arr).2).length ≤ s.length + arr.length := by
  intro arr
  induction arr with
  | nil =>
    intro s
    simp [stmap]
  | cons el arr ih =>
    intro s
    rw [stmap_cons]
    cases el with
    | obj ef =>
      have := ih (s ++ [(extract_keys pfx ef).2])
      simp at this ⊢
      omega
    | null => have := ih s; simp at this ⊢; omega
    | numInt m => have := ih s; simp at this ⊢; omega
    | numFloat => have := ih s; simp at this ⊢; omega
    | str s2 => have := ih s; simp at this ⊢; omega
    | boolean b => have := ih s; simp at this ⊢; omega
    | binary => have := ih s; simp at this ⊢; omega
    | enum e => have := ih s; simp at this ⊢; omega
    | list xs => have := ih s; simp at this ⊢; omega

theorem stmap_getReps_len (rest : List Seg) (pfx : Nat)
    (hrec : ∀ (el : V) (s : List V),
      ((get_representations rest pfx el s).2).length ≤
        s.length + siteCount rest (get_representations rest pfx el s).1) :
    ∀ (arr : List V) (s : List V),
      ((stmap (fun reps el => get_representations rest pfx el reps) s arr).2).length ≤
        s.length +
          (((stmap (fun reps el => get_representations rest pfx el reps) s arr).1).map
            (siteCount rest)).sum := by
  intro arr
  induction arr with
  | nil =>
    intro s
    simp [stmap]
  | cons el arr ih =>
    intro s
    rw [stmap_cons]
    have h1 := hrec el s
    have h2 := ih (get_representations rest pfx el s).2
    simp at h2 ⊢
    omega

theorem getReps_len_le :
    ∀ (path : List Seg) (pfx : Nat) (v : V) (reps0 : List V),
      ((get_representations path pfx v reps0).2).length ≤
        reps0.length + siteCount path (get_representations path pfx v reps0).1 := by
  intro path
  induction path with
  | nil =>
    intro pfx v reps0
    cases v <;> simp [get_representations, siteCount]
  | cons seg rest ih =>
    obtain ⟨nm, il⟩ := seg
    intro pfx v reps0
    cases rest with
    | nil =>
      cases v with
      | obj fields =>
        cases il with
        | true =>
          cases hg : objGet nm fields with
          | some w =>
            cases w with
            | list arr =>
              simp only [get_representations, hg, if_true, if_false, Bool.false_eq_true,
                siteCount, objGet_objUpdate_self hg]
              have h1 := stmap_extract_len pfx arr reps0
              have h2 := stmap_length (fun reps el =>
                match el with
                | V.obj elementFields =>
                  ((V.obj (extract_keys pfx elementFields).1 : V),
                    reps ++ [(extract_keys pfx elementFields).2])
                | _ => (el, reps)) arr reps0
              omega
            | null => simp [get_representations, hg, siteCount]
            | numInt m => simp [get_representations, hg, siteCount]
            | numFloat => simp [get_representations, hg, siteCount]
            | str s => simp [get_representations, hg, siteCount]
            | boolean b => simp [get_representations, hg, siteCount]
            | binary => simp [get_representations, hg, siteCount]
            | enum e => simp [get_representations, hg, siteCount]
            | obj f2 => simp [get_representations, hg, siteCount]
          | none => simp [get_representations, hg, siteCount]
        | false =>
          cases hg : objGet nm fields with
          | some w =>
            cases w with
            | obj keyFields =>
              simp only [get_representations, hg, if_true, if_false, Bool.false_eq_true,
                siteCount, objGet_objUpdate_self hg]
              simp
            | null => simp [get_representations, hg, siteCount]
            | numInt m => simp [get_representations, hg, siteCount]
            | numFloat => simp [get_representations, hg, siteCount]
            | str s => simp [get_representations, hg, siteCount]
            | boolean b => simp [get_representations, hg, siteCount]
            | binary => simp [get_representations, hg, siteCount]
            | enum e => simp [get_representations, hg, siteCount]
            | list xs => simp [get_representations, hg, siteCount]
          | none => simp [get_representations, hg, siteCount]
      | null => simp [get_representations, siteCount]
      | numInt m => simp [get_representations, siteCount]
      | numFloat => simp [get_representations, siteCount]
      | str s => simp [get_representations, siteCount]
      | boolean b => simp [get_representations, siteCount]
      | binary => simp [get_representations, siteCount]
      | enum e => simp [get_representations, siteCount]
      | list xs => simp [get_representations, siteCount]
    | cons seg2 rest2 =>
      cases v with
      | obj fields =>
        cases il with
        | true =>
          cases hg : objGet nm fields with
          | some w =>
            cases w with
            | list arr =>
              simp only [get_representations, hg, if_true, if_false, Bool.false_eq_true,
                siteCount, objGet_objUpdate_self hg]
              exact stmap_getReps_len (seg2 :: rest2) pfx
                (fun el s => ih pfx el s) arr reps0
            | null => simp [get_representations, hg, siteCount]
            | numInt m => simp [get_representations, hg, siteCount]
            | numFloat => simp [get_representations, hg, siteCount]
            | str s => simp [get_representations, hg, siteCount]
            | boolean b => simp [get_representations, hg, siteCount]
            | binary => simp [get_representations, hg, siteCount]
            | enum e => simp [get_representations, hg, siteCount]
            | obj f2 => simp [get_representations, hg, siteCount]
          | none => simp [get_representations, hg, siteCount]
        | false =>
          cases hg : objGet nm fields with
          | some next =>
            simp only [get_representations, hg, if_true, if_false, Bool.false_eq_true,
              siteCount, objGet_objUpdate_self hg]
            exact ih pfx next reps0
          | none => simp [get_representations, hg, siteCount]
      | null => simp [get_representations, siteCount]
      | numInt m => simp [get_representations, siteCount]
      | numFloat => simp [get_representations, siteCount]
      | str s => simp [get_representations, siteCount]
      | boolean b => simp [get_representations, siteCount]
      | binary => simp [get_representations, siteCount]
      | enum e => simp [get_representations, siteCount]
      | list xs => simp [get_representations, siteCount]

/-- C1: with the entity list in one-to-one correspondence with the
collected representations (the federation protocol contract on
`_entities`), `flatten_values` consumes exactly one entity per collected
representation when walked over the same tree with the same path and
prefix: its final entity index equals the number of representations
`get_representations` appended. -/
theorem representation_entity_count (path : List Seg) (pfx : Nat) (v : V) (values : List V)
    (hlen : values.length = ((get_representations path pfx v []).2).length) :
    (flatten_values path (get_representations path pfx v []).1 0 values).2 =
      ((get_representations path pfx v []).2).length := by
  have h1 := flatten_values_final path (get_representations path pfx v []).1 0 values
    (by omega)
  have h2 := getReps_len_le path pfx v []
  simp only [List.length_nil, Nat.zero_add] at h2
  rw [h1]
  omega

/-- Witness for C1: a list site with one object element and one scalar
element collects one representation and consumes exactly one entity. -/
theorem representation_entity_count_witness :
    (flatten_values [⟨"items", true⟩]
      (get_representations [⟨"items", true⟩] 0
        (V.obj [("items", V.list [V.obj [("__key0_id", V.numInt 1)], V.numInt 5])]) []).1
      0 [V.obj [("v", V.str "a")]]).2 = 1 := by
  have h := representation_entity_count [⟨"items", true⟩] 0
    (V.obj [("items", V.list [V.obj [("__key0_id", V.numInt 1)], V.numInt 5])])
    [V.obj [("v", V.str "a")]] rfl
  rw [h]
  rfl

/-! ## Synthetic-key cleanliness (C3) -/

theorem mem_objUpdate_exists {k1 : String} {v1 : V} {k : String} {v : V}
    {l : List (String × V)} (h : (k1, v1) ∈ objUpdate k v l) :
    ∃ w, (k1, w) ∈ l := by
  induction l with
  | nil => simp [objUpdate] at h
  | cons hd tl ih =>
    obtain ⟨k', v'⟩ := hd
    rw [objUpdate] at h
    split at h
    · rcases List.mem_cons.mp h with he | hm
      · cases he
        exact ⟨v', List.mem_cons_self _ _⟩
      · exact ⟨v1, List.mem_cons_of_mem _ hm⟩
    · rcases List.mem_cons.mp h with he | hm
      · cases he
        exact ⟨v1, List.mem_cons_self _ _⟩
      · obtain ⟨w, hw⟩ := ih hm
        exact ⟨w, List.mem_cons_of_mem _ hw⟩

theorem mem_mergeObj_keys :
    ∀ (ef tf : List (String × V)) (k : String) (v1 : V),
      (k, v1) ∈ mergeObj tf ef →
      (∃ w, (k, w) ∈ tf) ∨ k ∈ ef.map Prod.fst := by
  intro ef
  induction ef with
  | nil =>
    intro tf k v1 h
    exact Or.inl ⟨v1, h⟩
  | cons hd rest ih =>
    obtain ⟨k0, v0⟩ := hd
    intro tf k v1 h
    rw [mergeObj] at h
    cases hg : objGet k0 tf with
    | some old =>
      rw [hg] at h
      rcases ih _ k v1 h with ⟨w, hw⟩ | hk
      · obtain ⟨w2, hw2⟩ := mem_objUpdate_exists hw
        exact Or.inl ⟨w2, hw2⟩
      · exact Or.inr (by simp at hk ⊢; exact Or.inr hk)
    | none =>
      rw [hg] at h
      rcases ih _ k v1 h with ⟨w, hw⟩ | hk
      · rcases mem_btInsert hw with ⟨he, _⟩ | hm
        · subst he
          exact Or.inr (by simp)
        · exact Or.inl ⟨w, hm⟩
      · exact Or.inr (by simp at hk ⊢; exact Or.inr hk)

theorem topKeysClean_mergeData {p : String} {t e : V}
    (ht : topKeysClean p t = true) (he : topKeysClean p e = true) :
    topKeysClean p (mergeData t e) = true := by
  cases t with
  | null => cases e <;> exact he
  | obj tf =>
    cases e with
    | obj ef =>
      have ht2 : tf.all (fun kv => !(strStartsWith kv.1 p)) = true := ht
      have he2 : ef.all (fun kv => !(strStartsWith kv.1 p)) = true := he
      show (mergeObj tf ef).all (fun kv => !(strStartsWith kv.1 p)) = true
      rw [List.all_eq_true] at ht2 he2 ⊢
      intro kv hm
      obtain ⟨k, v1⟩ := kv
      rcases mem_mergeObj_keys ef tf k v1 hm with ⟨w, hw⟩ | hk
      · exact ht2 (k, w) hw
      · rw [List.mem_map] at hk
        obtain ⟨⟨k2, w2⟩, hm2, hke⟩ := hk
        cases hke
        exact he2 (k2, w2) hm2
    | null => exact ht
    | numInt m => exact ht
    | numFloat => exact ht
    | str s => exact ht
    | boolean b => exact ht
    | binary => exact ht
    | enum e2 => exact ht
    | list xs => exact ht
  | list xs =>
    cases e with
    | list ys =>
      rw [mergeData]
      split
      · rfl
      · rfl
    | null => exact ht
    | numInt m => exact ht
    | numFloat => exact ht
    | str s => exact ht
    | boolean b => exact ht
    | binary => exact ht
    | enum e2 => exact ht
    | obj ef => exact ht
  | numInt m => cases e <;> rfl
  | numFloat => cases e <;> rfl
  | str s => cases e <;> rfl
  | boolean b => cases e <;> rfl
  | binary => cases e <;> rfl
  | enum e2 => cases e <;> rfl

theorem topKeysClean_extract (pfx : Nat) (m : List (String × V)) :
    topKeysClean (keyPrefix pfx) (V.obj (extract_keys pfx m).1) = true := by
  rw [topKeysClean, List.all_eq_true]
  intro kv hm
  have := List.of_mem_filter hm
  simpa [keyPrefix] using this

theorem getReps_clean :
    ∀ (path : List Seg) (pfx : Nat) (v : V) (reps0 : List V),
      terminalObjsClean path pfx (get_representations path pfx v reps0).1 = true := by
  intro path
  induction path with
  | nil =>
    intro pfx v reps0
    cases v <;> rfl
  | cons seg rest ih =>
    obtain ⟨nm, il⟩ := seg
    intro pfx v reps0
    cases rest with
    | nil =>
      cases v with
      | obj fields =>
        cases il with
        | true =>
          cases hg : objGet nm fields with
          | some w =>
            cases w with
            | list arr =>
              simp only [get_representations, hg, if_true, if_false, Bool.false_eq_true,
                terminalObjsClean, objGet_objUpdate_self hg]
              rw [List.all_eq_true]
              intro el hel
              clear hg
              induction arr generalizing reps0 with
              | nil => simp [stmap] at hel
              | cons x arr ihx =>
                rw [stmap_cons] at hel
                cases x with
                | obj ef =>
                  rcases List.mem_cons.mp hel with he | hm
                  · subst he
                    exact topKeysClean_extract pfx ef
                  · exact ihx _ hm
                | null =>
                  rcases List.mem_cons.mp hel with he | hm
                  · subst he; rfl
                  · exact ihx _ hm
                | numInt m2 =>
                  rcases List.mem_cons.mp hel with he | hm
                  · subst he; rfl
                  · exact ihx _ hm
                | numFloat =>
                  rcases List.mem_cons.mp hel with he | hm
                  · subst he; rfl
                  · exact ihx _ hm
                | str s =>
                  rcases List.mem_cons.mp hel with he | hm
                  · subst he; rfl
                  · exact ihx _ hm
                | boolean b =>
                  rcases List.mem_cons.mp hel with he | hm
                  · subst he; rfl
                  · exact ihx _ hm
                | binary =>
                  rcases List.mem_cons.mp hel with he | hm
                  · subst he; rfl
                  · exact ihx _ hm
                | enum e =>
                  rcases List.mem_cons.mp hel with he | hm
                  · subst he; rfl
                  · exact ihx _ hm
                | list xs =>
                  rcases List.mem_cons.mp hel with he | hm
                  · subst he; rfl
                  · exact ihx _ hm
            | null => simp [get_representations, hg, terminalObjsClean, topKeysClean]
            | numInt m => simp [get_representations, hg, terminalObjsClean, topKeysClean]
            | numFloat => simp [get_representations, hg, terminalObjsClean, topKeysClean]
            | str s => simp [get_representations, hg, terminalObjsClean, topKeysClean]
            | boolean b => simp [get_representations, hg, terminalObjsClean, topKeysClean]
            | binary => simp [get_representations, hg, terminalObjsClean, topKeysClean]
            | enum e => simp [get_representations, hg, terminalObjsClean, topKeysClean]
            | obj f2 => simp [get_representations, hg, terminalObjsClean, topKeysClean]
          | none => simp [get_representations, hg, terminalObjsClean, topKeysClean]
        | false =>
          cases hg : objGet nm fields with
          | some w =>
            cases w with
            | obj keyFields =>
              simp only [get_representations, hg, if_true, if_false, Bool.false_eq_true,
                terminalObjsClean, objGet_objUpdate_self hg]
              exact topKeysClean_extract pfx keyFields
            | null => simp [get_representations, hg, terminalObjsClean, topKeysClean]
            | numInt m => simp [get_representations, hg, terminalObjsClean, topKeysClean]
            | numFloat => simp [get_representations, hg, terminalObjsClean, topKeysClean]
            | str s => simp [get_representations, hg, terminalObjsClean, topKeysClean]
            | boolean b => simp [get_representations, hg, terminalObjsClean, topKeysClean]
            | binary => simp [get_representations, hg, terminalObjsClean, topKeysClean]
            | enum e => simp [get_representations, hg, terminalObjsClean, topKeysClean]
            | list xs => simp [get_representations, hg, terminalObjsClean, topKeysClean]
          | none => simp [get_representations, hg, terminalObjsClean, topKeysClean]
      | null => rfl
      | numInt m => rfl
      | numFloat => rfl
      | str s => rfl
      | boolean b => rfl
      | binary => rfl
      | enum e => rfl
      | list xs => rfl
    | cons seg2 rest2 =>
      cases v with
      | obj fields =>
        cases il with
        | true =>
          cases hg : objGet nm fields with
          | some w =>
            cases w with
            | list arr =>
              simp only [get_representations, hg, if_true, if_false, Bool.false_eq_true,
                terminalObjsClean, objGet_objUpdate_self hg]
              rw [List.all_eq_true]
              intro el hel
              clear hg
              induction arr generalizing reps0 with
              | nil => simp [stmap] at hel
              | cons x arr ihx =>
                rw [stmap_cons] at hel
                rcases List.mem_cons.mp hel with he | hm
                · subst he
                  exact ih pfx x reps0
                · exact ihx _ hm
            | null => simp [get_representations, hg, terminalObjsClean, topKeysClean]
            | numInt m => simp [get_representations, hg, terminalObjsClean, topKeysClean]
            | numFloat => simp [get_representations, hg, terminalObjsClean, topKeysClean]
            | str s => simp [get_representations, hg, terminalObjsClean, topKeysClean]
            | boolean b => simp [get_representations, hg, terminalObjsClean, topKeysClean]
            | binary => simp [get_representations, hg, terminalObjsClean, topKeysClean]
            | enum e => simp [get_representations, hg, terminalObjsClean, topKeysClean]
            | obj f2 => simp [get_representations, hg, terminalObjsClean, topKeysClean]
          | none => simp [get_representations, hg, terminalObjsClean, topKeysClean]
        | false =>
          cases hg : objGet nm fields with
          | some next =>
            simp only [get_representations, hg, if_true, if_false, Bool.false_eq_true,
              terminalObjsClean, objGet_objUpdate_self hg]
            exact ih pfx next reps0
          | none => simp [get_representations, hg, terminalObjsClean, topKeysClean]
      | null => rfl
      | numInt m => rfl
      | numFloat => rfl
      | str s => rfl
      | boolean b => rfl
      | binary => rfl
      | enum e => rfl
      | list xs => rfl

theorem flatten_values_clean :
    ∀ (path : List Seg) (pfx : Nat) (target : V) (n : Nat) (values : List V),
      terminalObjsClean path pfx target = true →
      (∀ e ∈ values, topKeysClean (keyPrefix pfx) e = true) →
      terminalObjsClean path pfx (flatten_values path target n values).1 = true := by
  intro path
  induction path with
  | nil =>
    intro pfx target n values hc hv
    cases target <;> exact hc
  | cons seg rest ih =>
    obtain ⟨nm, il⟩ := seg
    intro pfx target n values hc hv
    cases rest with
    | nil =>
      cases target with
      | obj fields =>
        cases il with
        | true =>
          cases hg : objGet nm fields with
          | some w =>
            cases w with
            | list arr =>
              simp only [flatten_values, hg, if_true, if_false, Bool.false_eq_true,
                terminalObjsClean, objGet_objUpdate_self hg]
              simp only [terminalObjsClean, hg, if_true, if_false, Bool.false_eq_true] at hc
              clear hg
              rw [List.all_eq_true] at hc ⊢
              intro el hel
              induction arr generalizing n with
              | nil => simp [stmap] at hel
              | cons x arr ihx =>
                rw [stmap_cons] at hel
                rcases List.mem_cons.mp hel with he | hm
                · subst he
                  cases htv : take_value n values with
                  | some pair =>
                    obtain ⟨value, n2⟩ := pair
                    simp only [htv]
                    have hvv : value ∈ values := by
                      rw [take_value] at htv
                      split at htv
                      · cases htv
                        exact List.getElem_mem _
                      · exact Option.noConfusion htv
                    exact topKeysClean_mergeData
                      (hc x (List.mem_cons_self _ _)) (hv value hvv)
                  | none =>
                    simp only [htv]
                    exact hc x (List.mem_cons_self _ _)
                · exact ihx _ (fun e he2 => hc e (List.mem_cons_of_mem _ he2)) hm
            | null => simp only [flatten_values, hg]; exact hc
            | numInt m => simp only [flatten_values, hg]; exact hc
            | numFloat => simp only [flatten_values, hg]; exact hc
            | str s => simp only [flatten_values, hg]; exact hc
            | boolean b => simp only [flatten_values, hg]; exact hc
            | binary => simp only [flatten_values, hg]; exact hc
            | enum e => simp only [flatten_values, hg]; exact hc
            | obj f2 => simp only [flatten_values, hg]; exact hc
          | none => simp only [flatten_values, hg]; exact hc
        | false =>
          cases hg : objGet nm fields with
          | some t0 =>
            cases htv : take_value n values with
            | some pair =>
              obtain ⟨value, n2⟩ := pair
              simp only [flatten_values, hg, htv, if_true, if_false, Bool.false_eq_true,
                terminalObjsClean, objGet_objUpdate_self hg]
              simp only [terminalObjsClean, hg, if_true, if_false, Bool.false_eq_true] at hc
              have hvv : value ∈ values := by
                rw [take_value] at htv
                split at htv
                · cases htv
                  exact List.getElem_mem _
                · exact Option.noConfusion htv
              exact topKeysClean_mergeData hc (hv value hvv)
            | none =>
              simp only [flatten_values, hg, htv, if_true, if_false, Bool.false_eq_true]
              exact hc
          | none => simp only [flatten_values, hg]; exact hc
      | null => exact hc
      | numInt m => exact hc
      | numFloat => exact hc
      | str s => exact hc
      | boolean b => exact hc
      | binary => exact hc
      | enum e => exact hc
      | list xs => exact hc
    | cons seg2 rest2 =>
      cases target with
      | obj fields =>
        cases il with
        | true =>
          cases hg : objGet nm fields with
          | some w =>
            cases w with
            | list arr =>
              simp only [flatten_values, hg, if_true, if_false, Bool.false_eq_true,
                terminalObjsClean, objGet_objUpdate_self hg]
              simp only [terminalObjsClean, hg, if_true, if_false, Bool.false_eq_true] at hc
              clear hg
              rw [List.all_eq_true] at hc ⊢
              intro el hel
              induction arr generalizing n with
              | nil => simp [stmap] at hel
              | cons x arr ihx =>
                rw [stmap_cons] at hel
                rcases List.mem_cons.mp hel with he | hm
                · subst he
                  exact ih pfx x n values (hc x (List.mem_cons_self _ _)) hv
                · exact ihx _ (fun e he2 => hc e (List.mem_cons_of_mem _ he2)) hm
            | null => simp only [flatten_values, hg]; exact hc
            | numInt m => simp only [flatten_values, hg]; exact hc
            | numFloat => simp only [flatten_values, hg]; exact hc
            | str s => simp only [flatten_values, hg]; exact hc
            | boolean b => simp only [flatten_values, hg]; exact hc
            | binary => simp only [flatten_values, hg]; exact hc
            | enum e => simp only [flatten_values, hg]; exact hc
            | obj f2 => simp only [flatten_values, hg]; exact hc
          | none => simp only [flatten_values, hg]; exact hc
        | false =>
          cases hg : objGet nm fields with
          | some next =>
            simp only [flatten_values, hg, if_true, if_false, Bool.false_eq_true,
              terminalObjsClean, objGet_objUpdate_self hg]
            simp only [terminalObjsClean, hg, if_true, if_false, Bool.false_eq_true] at hc
            exact ih pfx next n values hc hv
          | none => simp only [flatten_values, hg]; exact hc
      | null => exact hc
      | numInt m => exact hc
      | numFloat => exact hc
      | str s => exact hc
      | boolean b => exact hc
      | binary => exact hc
      | enum e => exact hc
      | list xs => exact hc

/-- C3 counterexample: a subgraph reply whose entity itself carries a
`__key0_`-prefixed key is merged back in by entity integration, so after
`execute_flatten_node` a `__key0_` key remains in the object at the
terminal step of the path: integration can reintroduce synthetic keys. -/
theorem flatten_no_synthetic_keys_counterexample :
    (execute_flatten_node
        ⟨V.obj [("u", V.obj [("__key0_id", V.numInt 1), ("name", V.str "n")])], []⟩
        [⟨"u", false⟩] 0
        (fun _ => .ok ⟨V.obj [("_entities", V.list [V.obj [("__key0_evil", V.numInt 5)]])],
          []⟩)).data =
      V.obj [("u", V.obj [("__key0_evil", V.numInt 5), ("name", V.str "n")])] ∧
    terminalObjsClean [⟨"u", false⟩] 0
      (execute_flatten_node
        ⟨V.obj [("u", V.obj [("__key0_id", V.numInt 1), ("name", V.str "n")])], []⟩
        [⟨"u", false⟩] 0
        (fun _ => .ok ⟨V.obj [("_entities", V.list [V.obj [("__key0_evil", V.numInt 5)]])],
          []⟩)).data = false :=
  ⟨rfl, rfl⟩

/-- C3 (amended): provided the reply's entities carry no top-level key
with this node's synthetic prefix (the federation contract — nested
flattens use other prefixes), after `execute_flatten_node` completes no
key beginning with `__key<prefix>_` remains in any object reached at the
terminal step of the node's path: collection removes every such key and
integration does not reintroduce one. -/
theorem flatten_no_synthetic_keys (current : Response) (path : List Seg) (pfx : Nat)
    (q : V → QueryResult)
    (hq : ∀ r, q (flatten_vars (get_representations path pfx current.data []).2) = .ok r →
      r.errors = [] → ∀ vs, entitiesOf r.data = some vs →
      ∀ e ∈ vs, topKeysClean (keyPrefix pfx) e = true) :
    terminalObjsClean path pfx (execute_flatten_node current path pfx q).data = true := by
  rw [execute_flatten_node]
  cases hres : q (flatten_vars (get_representations path pfx current.data []).2) with
  | error msg => exact getReps_clean path pfx current.data []
  | ok r =>
    cases herr : r.errors with
    | cons e es =>
      simp only [herr, List.isEmpty_cons, if_false, Bool.false_eq_true]
      exact getReps_clean path pfx current.data []
    | nil =>
      simp only [herr, List.isEmpty_nil, if_true]
      cases hd : r.data with
      | obj dataFields =>
        cases hge : objGet "_entities" dataFields with
        | some w =>
          cases w with
          | list vs =>
            have hent : entitiesOf r.data = some vs := by
              rw [hd, entitiesOf, hge]
            simp only [hge]
            exact flatten_values_clean path pfx _ 0 vs
              (getReps_clean path pfx current.data [])
              (hq r hres herr vs hent)
          | null => simp only [hge]; exact getReps_clean path pfx current.data []
          | numInt m => simp only [hge]; exact getReps_clean path pfx current.data []
          | numFloat => simp only [hge]; exact getReps_clean path pfx current.data []
          | str s => simp only [hge]; exact getReps_clean path pfx current.data []
          | boolean b => simp only [hge]; exact getReps_clean path pfx current.data []
          | binary => simp only [hge]; exact getReps_clean path pfx current.data []
          | enum e => simp only [hge]; exact getReps_clean path pfx current.data []
          | obj f2 => simp only [hge]; exact getReps_clean path pfx current.data []
        | none => simp only [hge]; exact getReps_clean path pfx current.data []
      | null => exact getReps_clean path pfx current.data []
      | numInt m => exact getReps_clean path pfx current.data []
      | numFloat => exact getReps_clean path pfx current.data []
      | str s => exact getReps_clean path pfx current.data []
      | boolean b => exact getReps_clean path pfx current.data []
      | binary => exact getReps_clean path pfx current.data []
      | enum e => exact getReps_clean path pfx current.data []
      | list xs => exact getReps_clean path pfx current.data []

/-- Witness for the amended C3 at a concrete execution with a conforming
reply. -/
theorem flatten_no_synthetic_keys_witness :
    terminalObjsClean [⟨"u", false⟩] 0
      (execute_flatten_node
        ⟨V.obj [("u", V.obj [("__key0_id", V.numInt 1), ("name", V.str "n")])], []⟩
        [⟨"u", false⟩] 0
        (fun _ => .ok ⟨V.obj [("_entities", V.list [V.obj [("age", V.numInt 42)]])],
          []⟩)).data = true := by
  apply flatten_no_synthetic_keys
  intro r hr herr vs hvs e he
  cases hr
  cases hvs
  simp at he
  subst he
  rfl

/-! ## Null input validation (C9) -/

/-- C9: for every schema and path, a null value against a non-nullable
type yields exactly the error `"<dotted path>", expected type "T!"` — the
rendered type carrying the trailing `!` — while a null value against a
nullable type is accepted. -/
theorem null_input_validation :
    (∀ (schema : ComposedSchema) (b : BaseType) (pathNode : PathNode),
      is_valid_input_value schema (.mk b false) V.null pathNode =
        some ("\"" ++ pathNode.render ++ "\", expected type \"" ++
          BaseType.render b ++ "!\"")) ∧
    (∀ (schema : ComposedSchema) (b : BaseType) (pathNode : PathNode),
      is_valid_input_value schema (.mk b true) V.null pathNode = none) := by
  constructor
  · intro schema b pathNode
    rw [is_valid_input_value]
    simp [isNullV, valid_error, GType.render, String.append_assoc]
    have hlit : ("\", " : String) ++ ("expected type \"" ++ (BaseType.render b ++ "!\"")) =
        "\", expected type \"" ++ (BaseType.render b ++ "!\"") := by
      rw [← String.append_assoc]
      have h2 : ("\", " : String) ++ "expected type \"" = "\", expected type \"" := by decide
      rw [h2]
    rw [hlit]
  · intro schema b pathNode
    rw [is_valid_input_value]
    cases b with
    | list elem =>
      rw [is_valid_input_base_value]
      simp [GType.nullable, GType.base]
    | named name =>
      rw [is_valid_input_base_value]
      simp [GType.nullable, GType.base, isNullV]

/-- Witness for C9: `Int!` with value null at `$var` yields the exact
message of the specification, and nullable `Int` accepts null. -/
theorem null_input_validation_witness :
    is_valid_input_value ⟨[]⟩ (.mk (.named "Int") false) V.null (PathNode.root "$var") =
      some "\"$var\", expected type \"Int!\"" ∧
    is_valid_input_value ⟨[]⟩ (.mk (.named "Int") true) V.null (PathNode.root "$var") =
      none := by
  constructor
  · rw [null_input_validation.1 ⟨[]⟩ (.named "Int") (PathNode.root "$var")]
    rfl
  · exact null_input_validation.2 ⟨[]⟩ (.named "Int") (PathNode.root "$var")

end GraphGate
